import Mathlib

/-
Verification development for the ryota2357-regex repository.

The repository compiles a small regular-expression language (literal
characters, empty word, star, union, concatenation, written with the
operators | * ( ) and backslash escapes) to an NFA via Thompson
construction (src/parser.rs, Node::assemble), converts the NFA to a DFA
by epsilon-closure and subset construction (src/automaton/dfa.rs,
DFA::from_nfa) and matches input text by a linear scan over the DFA
(src/lib.rs, Regex::matches).

This file is a shallow embedding of that code:
 * Rust HashSet / HashMap values are modelled as Finset / association
   lists.  All the loops of the Rust code that iterate over a HashSet and
   only insert into another set are modelled by the (iteration-order
   independent) set they produce; loops whose iteration order is
   observable (the worklist of DFA::from_nfa) are modelled with a fixed
   deterministic order (sorted), one of the behaviours the Rust code
   (whose HashMap iteration order is arbitrary) can exhibit.
 * the state-id counters (Context in nfa.rs and dfa.rs) are threaded
   explicitly through the recursion,
 * machine integers (u32 state ids) are modelled as Nat; none of the
   verified properties depends on wrap-around behaviour,
 * the panic in Lexer::scan (expect on end of input after a backslash)
   is modelled as an explicit CompileResult.panicked outcome.
-/

namespace RyotaRegex

/-! ## Tokens and the lexer (src/lexer.rs) -/

/-- Tokens produced by the lexer; mirrors enum Token of src/lexer.rs
(eof is Token::End there). -/
inductive Token where
  | character : Char → Token
  | unionOp : Token
  | starOp : Token
  | leftParen : Token
  | rightParen : Token
  | eof : Token
deriving DecidableEq, Repr

/-- Lexer.scan of src/lexer.rs: consume one token from the remaining
input.  Rust panics (expect) when a backslash is the last character;
that outcome is modelled as none. -/
def Lexer.scan : List Char → Option (Token × List Char)
  | [] => some (Token.eof, [])
  | '\\' :: [] => none
  | '\\' :: c :: rest => some (Token.character c, rest)
  | '|' :: rest => some (Token.unionOp, rest)
  | '(' :: rest => some (Token.leftParen, rest)
  | ')' :: rest => some (Token.rightParen, rest)
  | '*' :: rest => some (Token.starOp, rest)
  | c :: rest => some (Token.character c, rest)

/-- Full tokenization of a pattern.  Returns none exactly when lexing the
whole input would hit the panic of Lexer.scan (a dangling backslash). -/
def Lexer.tokenizeAll : List Char → Option (List Token)
  | [] => some []
  | '\\' :: [] => none
  | '\\' :: c :: rest => (Lexer.tokenizeAll rest).map (fun ts => Token.character c :: ts)
  | '|' :: rest => (Lexer.tokenizeAll rest).map (fun ts => Token.unionOp :: ts)
  | '(' :: rest => (Lexer.tokenizeAll rest).map (fun ts => Token.leftParen :: ts)
  | ')' :: rest => (Lexer.tokenizeAll rest).map (fun ts => Token.rightParen :: ts)
  | '*' :: rest => (Lexer.tokenizeAll rest).map (fun ts => Token.starOp :: ts)
  | c :: rest => (Lexer.tokenizeAll rest).map (fun ts => Token.character c :: ts)

/-! ## The syntax tree (src/parser.rs, enum Node) -/

/-- Syntax tree; mirrors enum Node of src/parser.rs. -/
inductive Node where
  | character : Char → Node
  | empty : Node
  | star : Node → Node
  | union : Node → Node → Node
  | concat : Node → Node → Node
deriving DecidableEq, Repr

/-! ## The NFA (src/automaton/nfa.rs) -/

/-- The NFA of nfa.rs.  State ids (struct NFAState, a u32 newtype) are
modelled as bare Nat.  The nested HashMap transition table,
HashMap of state to HashMap of Option Char to HashSet of states, is a
finite edge relation; it is modelled as the finite set of its
(from, label, to) edges.  Keys of the Rust maps are always mapped to
nonempty sets (every insertion adds an element), so the two views agree. -/
structure NFA where
  start : Nat
  accepts : Finset Nat
  transition : Finset (Nat × Option Char × Nat)
deriving DecidableEq

/-- NFA::new. -/
def NFA.new (start : Nat) (accepts : Finset Nat) : NFA :=
  ⟨start, accepts, ∅⟩

/-- NFA::next_states. -/
def NFA.next_states (nfa : NFA) (state : Nat) (chara : Option Char) : Finset Nat :=
  (nfa.transition.filter (fun e => e.1 = state ∧ e.2.1 = chara)).image (fun e => e.2.2)

/-- NFA::next_chars. -/
def NFA.next_chars (nfa : NFA) (state : Nat) : Finset (Option Char) :=
  (nfa.transition.filter (fun e => e.1 = state)).image (fun e => e.2.1)

/-- NFA::add_transition. -/
def NFA.add_transition (nfa : NFA) (f : Nat) (chara : Char) (t : Nat) : NFA :=
  { nfa with transition := insert (f, some chara, t) nfa.transition }

/-- NFA::add_empty_transition. -/
def NFA.add_empty_transition (nfa : NFA) (f : Nat) (t : Nat) : NFA :=
  { nfa with transition := insert (f, (none : Option Char), t) nfa.transition }

/-- NFA::merge_transition: union of the edge relations. -/
def NFA.merge_transition (nfa other : NFA) : NFA :=
  { nfa with transition := nfa.transition ∪ other.transition }

/-- Net effect of the Rust loops "for accept in frag.accepts: nfa =
nfa.add_empty_transition(accept, target)" in Node::assemble.  Each
iteration inserts one edge, so the result is this union, independent of
the HashSet iteration order. -/
def NFA.add_empty_transitions_from (nfa : NFA) (froms : Finset Nat) (t : Nat) : NFA :=
  { nfa with transition := nfa.transition ∪ froms.image (fun a => (a, (none : Option Char), t)) }

/-- The state-id counter of src/automaton/nfa.rs (struct Context). -/
structure NFAContext where
  states : Nat
deriving DecidableEq, Repr

/-- Context::new_state of nfa.rs. -/
def NFAContext.new_state (ctx : NFAContext) : Nat × NFAContext :=
  (ctx.states, ⟨ctx.states + 1⟩)

/-- Node::assemble of src/parser.rs: Thompson construction, threading the
state-id counter through the recursion in the Rust evaluation order. -/
def Node.assemble : Node → NFAContext → NFA × NFAContext
  | Node.character chara, ctx =>
    let (start, ctx1) := ctx.new_state
    let (accept, ctx2) := ctx1.new_state
    ((NFA.new start {accept}).add_transition start chara accept, ctx2)
  | Node.empty, ctx =>
    let (start, ctx1) := ctx.new_state
    let (accept, ctx2) := ctx1.new_state
    ((NFA.new start {accept}).add_empty_transition start accept, ctx2)
  | Node.star node, ctx =>
    let (frag, ctx1) := node.assemble ctx
    let (start, ctx2) := ctx1.new_state
    let accepts := frag.accepts ∪ {start}
    ((((NFA.new start accepts).merge_transition frag).add_empty_transition start
        frag.start).add_empty_transitions_from frag.accepts frag.start,
      ctx2)
  | Node.union n1 n2, ctx =>
    let (frag1, ctx1) := n1.assemble ctx
    let (frag2, ctx2) := n2.assemble ctx1
    let (start, ctx3) := ctx2.new_state
    let accepts := frag1.accepts ∪ frag2.accepts
    (((((NFA.new start accepts).merge_transition frag1).merge_transition
          frag2).add_empty_transition start frag1.start).add_empty_transition start frag2.start,
      ctx3)
  | Node.concat n1 n2, ctx =>
    let (frag1, ctx1) := n1.assemble ctx
    let (frag2, ctx2) := n2.assemble ctx1
    ((((NFA.new frag1.start frag2.accepts).merge_transition frag1).merge_transition
        frag2).add_empty_transitions_from frag1.accepts frag2.start,
      ctx2)

/-- NFA::from_node: assemble with a fresh Context (counter 0). -/
def NFA.from_node (node : Node) : NFA :=
  (node.assemble ⟨0⟩).1

/-! ## Epsilon closure

DFA::from_nfa computes epsilon closures twice with an explicit stack
worklist (the start-state block and the per-character block).  Both
loops compute exactly the set of states reachable from the seed set via
zero or more epsilon edges; they are modelled by the iterated-step
closure below.  (The Rust start-state Vec can list a state twice when
two stack entries for it are pushed before the first is popped; that
affects only which Vec is used as the memo key, not the set of states,
and is discussed at Context::get_state whose sort does not
deduplicate.) -/

/-- States mentioned anywhere in the NFA. -/
def NFA.stateUniv (nfa : NFA) : Finset Nat :=
  insert nfa.start (nfa.accepts ∪ nfa.transition.biUnion (fun e => {e.1, e.2.2}))

/-- One step of epsilon closure: add the direct epsilon successors. -/
def NFA.estep (nfa : NFA) (S : Finset Nat) : Finset Nat :=
  S ∪ S.biUnion (fun s => nfa.next_states s none)

/-- Enough iterations of estep to reach the fixed point on any seed. -/
def NFA.closureFuel (nfa : NFA) : Nat :=
  (nfa.stateUniv).card + 1

/-- Epsilon closure of a set of NFA states. -/
def NFA.eclosure (nfa : NFA) (S : Finset Nat) : Finset Nat :=
  (nfa.estep)^[nfa.closureFuel] S

/-! ## The DFA builder (src/automaton/dfa.rs) -/

/-- The canonicalization memo of dfa.rs (struct Context): the counter
and the HashMap from sorted Vec of NFA state ids to DFA state ids
(struct DFAState, a u32 newtype, modelled as bare Nat), as an
association list (newest entry first). -/
structure DFAContext where
  states : Nat
  statemap : List (List Nat × Nat)
deriving DecidableEq, Repr

/-- The sort performed by Context::get_state (sorted_states.sort()).
Note it does not deduplicate. -/
def sortStates (l : List Nat) : List Nat :=
  List.insertionSort (· ≤ ·) l

/-- Context::get_state of dfa.rs: sort the argument, look it up in the
memo, otherwise allocate the next id. -/
def DFAContext.get_state (ctx : DFAContext) (states : List Nat) : Nat × DFAContext :=
  match ctx.statemap.lookup (sortStates states) with
  | some state => (state, ctx)
  | none =>
    (ctx.states,
      { states := ctx.states + 1, statemap := (sortStates states, ctx.states) :: ctx.statemap })

/-- The DFA of dfa.rs.  The HashMap from (Nat, char) to Nat is
an association list; insertion is cons and lookup takes the newest
entry, which is exactly the overwrite semantics of HashMap::insert. -/
structure DFA where
  start : Nat
  accepts : Finset Nat
  transition : List ((Nat × Char) × Nat)
deriving DecidableEq

/-- DFA::next_state. -/
def DFA.next_state (dfa : DFA) (state : Nat) (chara : Char) : Option Nat :=
  dfa.transition.lookup (state, chara)

/-- Characters of the alphabet of the NFA (labels of non-epsilon edges). -/
def NFA.alphabet (nfa : NFA) : Finset Char :=
  nfa.transition.biUnion (fun e => match e.2.1 with | some c => {c} | none => ∅)

/-- The characters which label a non-epsilon transition out of some state
of K: the keys of transition_map in DFA::from_nfa (each look_state
contributes next_chars filtered to Some). -/
def charsOfSet (nfa : NFA) (K : Finset Nat) : Finset Char :=
  K.biUnion (fun s => (nfa.next_chars s).biUnion
    (fun o => match o with | some c => {c} | none => ∅))

/-- States of K which have a transition labelled c (the look_states whose
next_chars contains Some c). -/
def cSources (nfa : NFA) (K : Finset Nat) (c : Char) : Finset Nat :=
  K.filter (fun s => some c ∈ nfa.next_chars s)

/-- The seed of the destination-set computation of DFA::from_nfa for
(K, c): for every look_state with a c-transition, its c-targets chained
with its direct epsilon successors (next_states(look_state, None)). -/
def destSeed (nfa : NFA) (K : Finset Nat) (c : Char) : Finset Nat :=
  (cSources nfa K c).biUnion (fun s => nfa.next_states s (some c) ∪ nfa.next_states s none)

/-- Executable ascending enumeration of a finite set of naturals (used
in place of Finset.sort, whose merge sort does not reduce in the
kernel). -/
def natRangeSorted (S : Finset Nat) : List Nat :=
  (List.range (S.sup id + 1)).filter (fun x => decide (x ∈ S))

/-- Executable enumeration of a finite set of characters in code-point
order; the subset construction iterates transition_map in this fixed
order (the Rust HashMap order is arbitrary). -/
def charSorted (S : Finset Char) : List Char :=
  ((List.range (S.sup (fun c => c.toNat) + 1)).filter
    (fun n => decide (∃ c ∈ S, c.toNat = n))).map Char.ofNat

/-- The destination set transition_map[c] recorded by DFA::from_nfa,
as a sorted list (the Rust code unions the per-look_state closures into
a HashSet; closure of the union equals union of the closures). -/
def destList (nfa : NFA) (K : Finset Nat) (c : Char) : List Nat :=
  natRangeSorted (nfa.eclosure (destSeed nfa K c))

/-- Loop state of the worklist loop of DFA::from_nfa.  pushes is a ghost
field recording every Vec pushed onto the worklist (the seed and every
waiting.push), in order; it does not influence the computation. -/
structure SubsetState where
  ctx : DFAContext
  waiting : List (List Nat)
  visited : Finset Nat
  trans : List ((Nat × Char) × Nat)
  pushes : List (List Nat)
deriving DecidableEq

/-- Body of "for (chara, next_states) in transition_map" in
DFA::from_nfa: canonicalize the destination, push it if its id is not
visited, record the transition.  toId stands for
(st.ctx.get_state (destList nfa K c)).1 throughout. -/
def processChar (nfa : NFA) (K : Finset Nat) (fromId : Nat)
    (st : SubsetState) (c : Char) : SubsetState :=
  { ctx := (st.ctx.get_state (destList nfa K c)).2
    waiting :=
      if (st.ctx.get_state (destList nfa K c)).1 ∈ st.visited then st.waiting
      else destList nfa K c :: st.waiting
    visited := st.visited
    trans := ((fromId, c), (st.ctx.get_state (destList nfa K c)).1) :: st.trans
    pushes :=
      if (st.ctx.get_state (destList nfa K c)).1 ∈ st.visited then st.pushes
      else st.pushes ++ [destList nfa K c] }

/-- One iteration of "while let Some(look_states) = waiting.pop()" in
DFA::from_nfa: mark the id of the popped set visited, then process its
characters (the code calls get_state once for the visited insert and
once for the transition source; both calls are kept).  The iteration
order of the Rust HashMap transition_map is arbitrary; the model
iterates the characters in sorted order. -/
def subsetStep (nfa : NFA) (st : SubsetState) : SubsetState :=
  match st.waiting with
  | [] => st
  | look :: rest =>
    (charSorted (charsOfSet nfa look.toFinset)).foldl
      (processChar nfa look.toFinset (((st.ctx.get_state look).2.get_state look).1))
      { ctx := ((st.ctx.get_state look).2.get_state look).2
        waiting := rest
        visited := insert (st.ctx.get_state look).1 st.visited
        trans := st.trans
        pushes := st.pushes }

/-- The worklist loop, driven by fuel.  subsetFuel below is proved large
enough that the worklist always drains. -/
def subsetLoop (nfa : NFA) : Nat → SubsetState → SubsetState
  | 0, st => st
  | fuel + 1, st => if st.waiting = [] then st else subsetLoop nfa fuel (subsetStep nfa st)

/-- Fuel bound for the worklist loop (proved sufficient below): every
push is of a canonical set whose id is unvisited, canonical sets are
(sorted deduplicated) subsets of the state universe, and a pop that
pushes anything leaves an unvisited set on top of the stack. -/
def subsetFuel (nfa : NFA) : Nat :=
  let A := (nfa.alphabet).card
  (2 * A + 2) * (2 ^ (nfa.stateUniv).card + 1) + (A + 2)

/-- The start-state block of DFA::from_nfa: collect the epsilon closure
of the NFA start state. -/
def startList (nfa : NFA) : List Nat :=
  natRangeSorted (nfa.eclosure {nfa.start})

/-- DFA::from_nfa up to the end of the worklist loop: the start id and
the final loop state (the memo starts empty, the worklist is seeded with
the start closure, visited starts empty). -/
def subsetConstruction (nfa : NFA) : Nat × SubsetState :=
  (((⟨0, []⟩ : DFAContext).get_state (startList nfa)).1,
    subsetLoop nfa (subsetFuel nfa)
      ⟨((⟨0, []⟩ : DFAContext).get_state (startList nfa)).2,
        [startList nfa], ∅, [], [startList nfa]⟩)

/-- DFA::from_nfa: run the subset construction, then collect as
accepting every memoized canonical set containing an NFA accept state. -/
def DFA.from_nfa (nfa : NFA) : DFA :=
  { start := (subsetConstruction nfa).1
    accepts :=
      (((subsetConstruction nfa).2.ctx.statemap.filter
          (fun p => p.1.any (fun s => decide (s ∈ nfa.accepts)))).map Prod.snd).toFinset
    transition := (subsetConstruction nfa).2.trans }

/-! ## The matcher and the public interface (src/lib.rs) -/

/-- The compiled pattern object (struct Regex of src/lib.rs). -/
structure Regex where
  dfa : DFA
deriving DecidableEq

/-- The loop of Regex::matches, recursion on the remaining input: step
through next_state; a missing transition returns false immediately;
at the end of the input test membership in the accepting set. -/
def DFA.matchesFrom (dfa : DFA) : Nat → List Char → Bool
  | state, [] => decide (state ∈ dfa.accepts)
  | state, chara :: rest =>
    match dfa.next_state state chara with
    | some next => dfa.matchesFrom next rest
    | none => false

/-- Regex::matches of src/lib.rs. -/
def Regex.matches (re : Regex) (text : List Char) : Bool :=
  re.dfa.matchesFrom re.dfa.start text

/-! ## The parser (src/parser.rs, struct Parser)

The Rust parser keeps a one-token lookahead (self.look) and pulls
further tokens lazily from the lexer; match_next on success scans the
next token (and can therefore hit the lexer panic).  The parser state is
the pair (look, remaining characters).  The recursive-descent functions
are driven by fuel; parseFuel is proved sufficient below. -/

/-- Parser state: the lookahead token and the unscanned characters. -/
abbrev ParserState := Token × List Char

/-- ParseError of src/parser.rs: the expected token set and the actual
offending token. -/
structure ParseError where
  expected : List Token
  actual : Token
deriving DecidableEq, Repr

/-- Outcome of a parser function: ok and error both carry the parser
state afterwards (the Rust parser object survives an Err and factor
keeps using it); panicked is the lexer panic; fuelOut never occurs for
the fuel Regex.new passes (proved below). -/
inductive PR (α : Type) where
  | ok : α → ParserState → PR α
  | error : ParseError → ParserState → PR α
  | panicked : PR α
  | fuelOut : PR α
deriving DecidableEq

/-- Sequencing with the question-mark operator of Rust: propagate
error / panic, keep going on ok. -/
def PR.andThen {α β : Type} (r : PR α) (f : α → ParserState → PR β) : PR β :=
  match r with
  | PR.ok a st => f a st
  | PR.error e st => PR.error e st
  | PR.panicked => PR.panicked
  | PR.fuelOut => PR.fuelOut

/-- Parser::match_next: compare the lookahead against the wanted token;
on success scan the next token (which can panic), otherwise build a
ParseError and leave the state unchanged. -/
def Parser.match_next (token : Token) (st : ParserState) : PR Unit :=
  if st.1 = token then
    match Lexer.scan st.2 with
    | some st2 => PR.ok () st2
    | none => PR.panicked
  else
    PR.error ⟨[token], st.1⟩ st

mutual

/-- Parser::expression. -/
def Parser.expression : Nat → ParserState → PR Node
  | 0, _ => PR.fuelOut
  | fuel + 1, st =>
    (Parser.sub_expression fuel st).andThen fun node st1 =>
      (Parser.match_next Token.eof st1).andThen fun _ st2 => PR.ok node st2

/-- Parser::sub_expression. -/
def Parser.sub_expression : Nat → ParserState → PR Node
  | 0, _ => PR.fuelOut
  | fuel + 1, st =>
    (Parser.sequence fuel st).andThen fun node st1 =>
      match st1.1 with
      | Token.unionOp =>
        (Parser.match_next Token.unionOp st1).andThen fun _ st2 =>
          (Parser.sub_expression fuel st2).andThen fun node2 st3 =>
            PR.ok (Node.union node node2) st3
      | _ => PR.ok node st1

/-- Parser::sequence. -/
def Parser.sequence : Nat → ParserState → PR Node
  | 0, _ => PR.fuelOut
  | fuel + 1, st =>
    match st.1 with
    | Token.leftParen => Parser.sub_sequence fuel st
    | Token.character _ => Parser.sub_sequence fuel st
    | _ => PR.ok Node.empty st

/-- Parser::sub_sequence. -/
def Parser.sub_sequence : Nat → ParserState → PR Node
  | 0, _ => PR.fuelOut
  | fuel + 1, st =>
    (Parser.star fuel st).andThen fun node st1 =>
      match st1.1 with
      | Token.leftParen =>
        (Parser.sub_sequence fuel st1).andThen fun node2 st2 =>
          PR.ok (Node.concat node node2) st2
      | Token.character _ =>
        (Parser.sub_sequence fuel st1).andThen fun node2 st2 =>
          PR.ok (Node.concat node node2) st2
      | _ => PR.ok node st1

/-- Parser::star. -/
def Parser.star : Nat → ParserState → PR Node
  | 0, _ => PR.fuelOut
  | fuel + 1, st =>
    (Parser.factor fuel st).andThen fun node st1 =>
      match st1.1 with
      | Token.starOp =>
        (Parser.match_next Token.starOp st1).andThen fun _ st2 =>
          PR.ok (Node.star node) st2
      | _ => PR.ok node st1

/-- Parser::factor.  In the parenthesis branch the Rust code calls
match_next(RightParen) even when the inner sub_expression failed, and
returns the match_next error if that fails too; this is modelled
exactly. -/
def Parser.factor : Nat → ParserState → PR Node
  | 0, _ => PR.fuelOut
  | fuel + 1, st =>
    match st.1 with
    | Token.leftParen =>
      (Parser.match_next Token.leftParen st).andThen fun _ st1 =>
        match Parser.sub_expression fuel st1 with
        | PR.ok node st2 =>
          (Parser.match_next Token.rightParen st2).andThen fun _ st3 => PR.ok node st3
        | PR.error e st2 =>
          (Parser.match_next Token.rightParen st2).andThen fun _ st3 => PR.error e st3
        | PR.panicked => PR.panicked
        | PR.fuelOut => PR.fuelOut
    | Token.character c =>
      (Parser.match_next (Token.character c) st).andThen fun _ st1 =>
        PR.ok (Node.character c) st1
    | other => PR.error ⟨[Token.leftParen, Token.character '_'], other⟩ st

end

/-- Unconsumed input still owed to the parser: the lookahead (unless it
is eof) plus the unscanned characters. -/
def stateWeight (st : ParserState) : Nat :=
  (if st.1 = Token.eof then 0 else 1) + st.2.length

/-- Fuel passed to the parser by Regex.new; proved sufficient below. -/
def parseFuel (st : ParserState) : Nat :=
  6 * stateWeight st + 6

/-- Outcome of Regex::new.  ok / error are the Rust Ok / Err; panicked
is the lexer panic (dangling backslash); fuelOut is an artifact of the
fuelled parser model and is proved unreachable. -/
inductive CompileResult where
  | ok : Regex → CompileResult
  | error : ParseError → CompileResult
  | panicked : CompileResult
  | fuelOut : CompileResult
deriving DecidableEq

/-- Regex::new of src/lib.rs: Parser::new scans the first lookahead,
parse runs expression, then the NFA and the DFA are built. -/
def Regex.new (pattern : List Char) : CompileResult :=
  match Lexer.scan pattern with
  | none => CompileResult.panicked
  | some st0 =>
    match Parser.expression (parseFuel st0) st0 with
    | PR.ok node _ => CompileResult.ok ⟨DFA.from_nfa (NFA.from_node node)⟩
    | PR.error e _ => CompileResult.error e
    | PR.panicked => CompileResult.panicked
    | PR.fuelOut => CompileResult.fuelOut

/-- true when the compile returned Ok or a structured Err (no abnormal
termination). -/
def CompileResult.normal : CompileResult → Bool
  | CompileResult.ok _ => true
  | CompileResult.error _ => true
  | CompileResult.panicked => false
  | CompileResult.fuelOut => false

/-- Matching through a compile result (none when compilation did not
return a pattern object). -/
def CompileResult.matchesResult : CompileResult → List Char → Option Bool
  | CompileResult.ok re, text => some (re.matches text)
  | _, _ => none

/-! ## Specification-side definitions

These follow the words of the specification (not the code) and are used
on the specification side of the refinement / equivalence claims. -/

/-- move(S, c) of the specification: union over the states of S of their
c-transition targets. -/
def moveSet (nfa : NFA) (S : Finset Nat) (c : Char) : Finset Nat :=
  S.biUnion (fun s => nfa.next_states s (some c))

/-- One step of the NFA simulation of the specification:
epsilon-closure of move(S, c). -/
def nfaStep (nfa : NFA) (S : Finset Nat) (c : Char) : Finset Nat :=
  nfa.eclosure (moveSet nfa S c)

/-- The NFA simulated with epsilon-closures at each step, as the
specification describes: start from the closure of the start state and
step through the input. -/
def nfaSim (nfa : NFA) (text : List Char) : Finset Nat :=
  text.foldl (nfaStep nfa) (nfa.eclosure {nfa.start})

/-- NFA acceptance under the simulation of the specification. -/
def nfaAccepts (nfa : NFA) (text : List Char) : Prop :=
  ((nfaSim nfa text) ∩ nfa.accepts).Nonempty

/-- Matcher semantics as the specification words it: thread the current
state through the input, none at the first missing transition. -/
def DFA.run (dfa : DFA) : Nat → List Char → Option Nat
  | state, [] => some state
  | state, chara :: rest =>
    match dfa.next_state state chara with
    | some next => dfa.run next rest
    | none => none

/-- No state of the NFA has both a character-labelled out-transition and
an epsilon out-transition (the invariant of claim C9, satisfied by every
assembled NFA and relied upon by the destination-set computation). -/
def NFA.goodSources (nfa : NFA) : Prop :=
  ∀ e ∈ nfa.transition, e.2.1.isSome = true → nfa.next_states e.1 none = ∅

instance (nfa : NFA) : Decidable nfa.goodSources := by
  unfold NFA.goodSources
  infer_instance

/-- Structural invariant of Node::assemble: starting from counter
ctx.states, the counter strictly advances, every state mentioned by the
fragment (start, accepts, edge endpoints) lies in the id range issued
during this call, no source of a character edge has an epsilon
out-transition, and no accepting state has a character out-transition. -/
def AssembleInv (t : Node) (ctx : NFAContext) : Prop :=
  ctx.states < ((t.assemble ctx).2).states ∧
  (ctx.states ≤ (t.assemble ctx).1.start ∧
    (t.assemble ctx).1.start < ((t.assemble ctx).2).states) ∧
  (∀ a ∈ (t.assemble ctx).1.accepts, ctx.states ≤ a ∧ a < ((t.assemble ctx).2).states) ∧
  (∀ e ∈ (t.assemble ctx).1.transition,
    (ctx.states ≤ e.1 ∧ e.1 < ((t.assemble ctx).2).states) ∧
    (ctx.states ≤ e.2.2 ∧ e.2.2 < ((t.assemble ctx).2).states)) ∧
  (∀ e ∈ (t.assemble ctx).1.transition, e.2.1.isSome = true →
    ∀ u, (e.1, (none : Option Char), u) ∉ (t.assemble ctx).1.transition) ∧
  (∀ a ∈ (t.assemble ctx).1.accepts, ∀ c u, (a, some c, u) ∉ (t.assemble ctx).1.transition)

/-! ## Well-formedness of the canonicalization memo and of the loop state -/

/-- Well-formedness of a DFAContext reachable from Context::new by
get_state calls: the ids are exactly 0 .. states-1 in reverse insertion
order, the keys are pairwise distinct, and every key is sorted. -/
def DFAContext.WF (ctx : DFAContext) : Prop :=
  ctx.statemap.map Prod.snd = (List.range ctx.states).reverse ∧
  (ctx.statemap.map Prod.fst).Nodup ∧
  ∀ p ∈ ctx.statemap, List.Sorted (· ≤ ·) p.1

/-- A sequence of further get_state calls (contexts are threaded left to
right); used to speak about two calls separated by other calls. -/
def DFAContext.applyCalls (ctx : DFAContext) : List (List Nat) → DFAContext
  | [] => ctx
  | l :: ls => ((ctx.get_state l).2).applyCalls ls

/-- true when the worklist is nonempty and the canonical set on top has
not been expanded yet (its id is not visited). -/
def unvisitedTop (st : SubsetState) : Bool :=
  match st.waiting with
  | [] => false
  | look :: _ =>
    match st.ctx.statemap.lookup (sortStates look) with
    | some d => decide (d ∉ st.visited)
    | none => true

/-- Termination measure for the worklist loop of DFA::from_nfa. -/
def psi (nfa : NFA) (st : SubsetState) : Nat :=
  let A := (nfa.alphabet).card
  (2 * A + 2) * (2 ^ (nfa.stateUniv).card - st.visited.card) + st.waiting.length -
    (if unvisitedTop st then A + 1 else 0)

/-- Facts established by the fold over the characters of one popped
canonical set (the for-loop over transition_map in DFA::from_nfa),
relating the state st0 before the fold to the state r after it. -/
structure FoldFacts (nfa : NFA) (K : Finset Nat) (fromId : Nat)
    (cs : List Char) (st0 r : SubsetState) : Prop where
  visited_eq : r.visited = st0.visited
  wf : r.ctx.WF
  keys_good : ∀ p ∈ r.ctx.statemap, p.1.Nodup ∧ ∀ x ∈ p.1, x ∈ nfa.stateUniv
  ctx_mono : ∀ p ∈ st0.ctx.statemap, p ∈ r.ctx.statemap
  waiting_eq : ∃ pushed, r.waiting = pushed ++ st0.waiting ∧ pushed.length ≤ cs.length ∧
    ∀ L ∈ pushed, ∃ d, (L, d) ∈ r.ctx.statemap ∧ d ∉ st0.visited
  trans_new : ∀ e ∈ r.trans, e ∈ st0.trans ∨
    (e.1.1 = fromId ∧ e.1.2 ∈ cs ∧ (destList nfa K e.1.2, e.2) ∈ r.ctx.statemap)
  trans_mono : ∀ e ∈ st0.trans, e ∈ r.trans
  trans_cover : ∀ c ∈ cs, ∃ t, ((fromId, c), t) ∈ r.trans
  frontier_new : ∀ e ∈ r.trans, e ∈ st0.trans ∨ e.2 ∈ st0.visited ∨
    ∃ L ∈ r.waiting, (L, e.2) ∈ r.ctx.statemap

/-- Invariant of the worklist loop of DFA::from_nfa. -/
structure LoopInv (nfa : NFA) (st : SubsetState) : Prop where
  wf : st.ctx.WF
  keys_good : ∀ p ∈ st.ctx.statemap, p.1.Nodup ∧ ∀ x ∈ p.1, x ∈ nfa.stateUniv
  waiting_mem : ∀ L ∈ st.waiting, ∃ d, (L, d) ∈ st.ctx.statemap
  visited_sub : ∀ d ∈ st.visited, ∃ K, (K, d) ∈ st.ctx.statemap
  trans_sound : ∀ e ∈ st.trans, ∃ K, (K, e.1.1) ∈ st.ctx.statemap ∧
    e.1.2 ∈ charsOfSet nfa K.toFinset ∧
    (destList nfa K.toFinset e.1.2, e.2) ∈ st.ctx.statemap
  trans_complete : ∀ d K, d ∈ st.visited → (K, d) ∈ st.ctx.statemap →
    ∀ c ∈ charsOfSet nfa K.toFinset, ∃ t, ((d, c), t) ∈ st.trans
  frontier : ∀ e ∈ st.trans, e.2 ∈ st.visited ∨ ∃ L ∈ st.waiting, (L, e.2) ∈ st.ctx.statemap
  start_mem : (startList nfa, 0) ∈ st.ctx.statemap
  start_frontier : 0 ∈ st.visited ∨ startList nfa ∈ st.waiting

/-- The remaining input of the parser state lexes to the end without
hitting the dangling-backslash panic. -/
def lexOK (st : ParserState) : Prop :=
  (Lexer.tokenizeAll st.2).isSome = true

/-- Postcondition of a parser function on input state st: the result is
ok or error (never a panic, never out of fuel), the state after still
lexes cleanly, and the unconsumed weight shrank by at least dec on ok
and did not grow on error. -/
abbrev PROk {α : Type} (st : ParserState) (dec : Nat) (r : PR α) : Prop :=
  (∃ a st2, r = PR.ok a st2 ∧ lexOK st2 ∧ stateWeight st2 + dec ≤ stateWeight st) ∨
  (∃ e st2, r = PR.error e st2 ∧ lexOK st2 ∧ stateWeight st2 ≤ stateWeight st)

/-! ## Basic lemmas about the NFA representation -/

theorem NFA.mem_next_states {nfa : NFA} {s t : Nat} {c : Option Char} :
    t ∈ nfa.next_states s c ↔ (s, c, t) ∈ nfa.transition := by
  unfold NFA.next_states
  simp only [Finset.mem_image, Finset.mem_filter]
  constructor
  · rintro ⟨⟨a, b, d⟩, ⟨he, rfl, rfl⟩, rfl⟩
    exact he
  · intro h
    exact ⟨(s, c, t), ⟨h, rfl, rfl⟩, rfl⟩

theorem NFA.mem_next_chars {nfa : NFA} {s : Nat} {o : Option Char} :
    o ∈ nfa.next_chars s ↔ ∃ t, (s, o, t) ∈ nfa.transition := by
  unfold NFA.next_chars
  simp only [Finset.mem_image, Finset.mem_filter]
  constructor
  · rintro ⟨⟨a, b, d⟩, ⟨he, rfl⟩, rfl⟩
    exact ⟨d, he⟩
  · rintro ⟨t, h⟩
    exact ⟨(s, o, t), ⟨h, rfl⟩, rfl⟩

theorem mem_optSingleton {o : Option Char} {c : Char} :
    c ∈ (match o with | some a => ({a} : Finset Char) | none => ∅) ↔ o = some c := by
  cases o <;> simp [eq_comm]

theorem NFA.mem_alphabet {nfa : NFA} {c : Char} :
    c ∈ nfa.alphabet ↔ ∃ e ∈ nfa.transition, e.2.1 = some c := by
  unfold NFA.alphabet
  simp only [Finset.mem_biUnion, mem_optSingleton]

theorem mem_charsOfSet {nfa : NFA} {K : Finset Nat} {c : Char} :
    c ∈ charsOfSet nfa K ↔ ∃ s ∈ K, ∃ t, (s, some c, t) ∈ nfa.transition := by
  unfold charsOfSet
  simp only [Finset.mem_biUnion, mem_optSingleton]
  constructor
  · rintro ⟨s, hs, o, ho, rfl⟩
    exact ⟨s, hs, (NFA.mem_next_chars.mp ho)⟩
  · rintro ⟨s, hs, t, ht⟩
    exact ⟨s, hs, some c, NFA.mem_next_chars.mpr ⟨t, ht⟩, rfl⟩

theorem charsOfSet_subset_alphabet {nfa : NFA} {K : Finset Nat} :
    charsOfSet nfa K ⊆ nfa.alphabet := by
  intro c hc
  obtain ⟨s, _, t, ht⟩ := mem_charsOfSet.mp hc
  exact NFA.mem_alphabet.mpr ⟨(s, some c, t), ht, rfl⟩

theorem mem_moveSet {nfa : NFA} {S : Finset Nat} {c : Char} {t : Nat} :
    t ∈ moveSet nfa S c ↔ ∃ s ∈ S, (s, some c, t) ∈ nfa.transition := by
  unfold moveSet
  simp only [Finset.mem_biUnion, NFA.mem_next_states]

theorem mem_cSources {nfa : NFA} {K : Finset Nat} {c : Char} {s : Nat} :
    s ∈ cSources nfa K c ↔ s ∈ K ∧ ∃ t, (s, some c, t) ∈ nfa.transition := by
  unfold cSources
  simp only [Finset.mem_filter, NFA.mem_next_chars]

theorem NFA.next_states_subset_univ {nfa : NFA} {s : Nat} {c : Option Char} :
    nfa.next_states s c ⊆ nfa.stateUniv := by
  intro t ht
  have h := NFA.mem_next_states.mp ht
  unfold NFA.stateUniv
  simp only [Finset.mem_insert, Finset.mem_union, Finset.mem_biUnion]
  exact Or.inr (Or.inr ⟨(s, c, t), h, by simp⟩)

theorem moveSet_subset_univ {nfa : NFA} {S : Finset Nat} {c : Char} :
    moveSet nfa S c ⊆ nfa.stateUniv := by
  intro t ht
  obtain ⟨s, _, h⟩ := mem_moveSet.mp ht
  exact NFA.next_states_subset_univ (NFA.mem_next_states.mpr h)

theorem destSeed_subset_univ {nfa : NFA} {K : Finset Nat} {c : Char} :
    destSeed nfa K c ⊆ nfa.stateUniv := by
  intro t ht
  unfold destSeed at ht
  obtain ⟨s, _, hm⟩ := Finset.mem_biUnion.mp ht
  rcases Finset.mem_union.mp hm with h | h
  · exact NFA.next_states_subset_univ h
  · exact NFA.next_states_subset_univ h

/-! ## Sorting lemmas -/

theorem sortStates_sorted (l : List Nat) : List.Sorted (· ≤ ·) (sortStates l) :=
  List.sorted_insertionSort _ l

theorem sortStates_perm (l : List Nat) : List.Perm (sortStates l) l :=
  List.perm_insertionSort _ l

theorem sortStates_eq_self {l : List Nat} (h : List.Sorted (· ≤ ·) l) :
    sortStates l = l :=
  List.eq_of_perm_of_sorted (sortStates_perm l) (sortStates_sorted l) h

theorem sortStates_toFinset (l : List Nat) : (sortStates l).toFinset = l.toFinset :=
  List.toFinset_eq_of_perm _ _ (sortStates_perm l)

theorem sortStates_nodup {l : List Nat} (h : l.Nodup) : (sortStates l).Nodup :=
  ((sortStates_perm l).nodup_iff).mpr h

theorem natRangeSorted_sorted (S : Finset Nat) : List.Sorted (· ≤ ·) (natRangeSorted S) :=
  ((List.pairwise_lt_range _).imp (fun h => le_of_lt h)).filter _

theorem natRangeSorted_nodup (S : Finset Nat) : (natRangeSorted S).Nodup :=
  (List.nodup_range _).filter _

theorem mem_natRangeSorted {S : Finset Nat} {x : Nat} : x ∈ natRangeSorted S ↔ x ∈ S := by
  unfold natRangeSorted
  rw [List.mem_filter, List.mem_range]
  constructor
  · intro h
    exact of_decide_eq_true h.2
  · intro h
    exact ⟨Nat.lt_succ_of_le (@Finset.le_sup Nat Nat _ _ _ id _ h), decide_eq_true h⟩

theorem natRangeSorted_toFinset (S : Finset Nat) : (natRangeSorted S).toFinset = S := by
  ext x
  rw [List.mem_toFinset, mem_natRangeSorted]

theorem mem_charSorted {S : Finset Char} {c : Char} : c ∈ charSorted S ↔ c ∈ S := by
  unfold charSorted
  rw [List.mem_map]
  constructor
  · rintro ⟨n, hn, rfl⟩
    rw [List.mem_filter] at hn
    obtain ⟨c2, hc2, he⟩ := of_decide_eq_true hn.2
    rw [← he, Char.ofNat_toNat]
    exact hc2
  · intro h
    refine ⟨c.toNat, ?_, Char.ofNat_toNat c⟩
    rw [List.mem_filter, List.mem_range]
    exact ⟨Nat.lt_succ_of_le (@Finset.le_sup Nat Char _ _ _ (fun c => c.toNat) _ h),
      decide_eq_true ⟨c, h, rfl⟩⟩

theorem charSorted_nodup (S : Finset Char) : (charSorted S).Nodup := by
  unfold charSorted
  refine List.Nodup.map_on ?_ ((List.nodup_range _).filter _)
  intro n1 h1 n2 h2 he
  rw [List.mem_filter] at h1 h2
  obtain ⟨c1, -, he1⟩ := of_decide_eq_true h1.2
  obtain ⟨c2, -, he2⟩ := of_decide_eq_true h2.2
  rw [← he1, ← he2] at he ⊢
  rw [Char.ofNat_toNat, Char.ofNat_toNat] at he
  rw [he]

theorem charSorted_length_le (S : Finset Char) : (charSorted S).length ≤ S.card := by
  classical
  have h1 : (charSorted S).length = (charSorted S).toFinset.card :=
    (List.toFinset_card_of_nodup (charSorted_nodup S)).symm
  rw [h1]
  apply Finset.card_le_card
  intro c hc
  rw [List.mem_toFinset, mem_charSorted] at hc
  exact hc

/-! ## Association list lookup lemmas -/

theorem lookup_mem {α β : Type} [BEq α] [LawfulBEq α] {l : List (α × β)} {k : α} {v : β}
    (h : l.lookup k = some v) : (k, v) ∈ l := by
  induction l with
  | nil => simp [List.lookup] at h
  | cons p t ih =>
    rw [List.lookup] at h
    by_cases hk : k = p.1
    · rw [show (k == p.1) = true from beq_iff_eq.mpr hk] at h
      simp only [Option.some.injEq] at h
      exact List.mem_cons.mpr (Or.inl (by cases p; simp_all))
    · rw [show (k == p.1) = false from beq_eq_false_iff_ne.mpr hk] at h
      exact List.mem_cons_of_mem _ (ih h)

theorem lookup_eq_none_iff {α β : Type} [BEq α] [LawfulBEq α] {l : List (α × β)} {k : α} :
    l.lookup k = none ↔ ∀ p ∈ l, p.1 ≠ k := by
  induction l with
  | nil => simp [List.lookup]
  | cons p t ih =>
    rw [List.lookup]
    by_cases hk : k = p.1
    · rw [show (k == p.1) = true from beq_iff_eq.mpr hk]
      simp [hk.symm]
    · rw [show (k == p.1) = false from beq_eq_false_iff_ne.mpr hk]
      simp only [ih, List.mem_cons]
      constructor
      · intro h q hq
        rcases hq with rfl | hq
        · exact fun hc => hk hc.symm
        · exact h q hq
      · intro h q hq
        exact h q (Or.inr hq)

theorem lookup_eq_some_of_mem {α β : Type} [BEq α] [LawfulBEq α] {l : List (α × β)} {k : α} {v : β}
    (hn : (l.map Prod.fst).Nodup) (h : (k, v) ∈ l) : l.lookup k = some v := by
  induction l with
  | nil => simp at h
  | cons p t ih =>
    rw [List.map_cons, List.nodup_cons] at hn
    rcases List.mem_cons.mp h with h1 | h1
    · rw [List.lookup, show (k == p.1) = true from beq_iff_eq.mpr (by rw [← h1])]
      rw [show p.2 = v from by rw [← h1]]
    · have hne : k ≠ p.1 := by
        intro hk
        exact hn.1 (hk ▸ (List.mem_map.mpr ⟨(k, v), h1, rfl⟩))
      rw [List.lookup, show (k == p.1) = false from beq_eq_false_iff_ne.mpr hne]
      exact ih hn.2 h1

theorem lookup_determined {α β : Type} [BEq α] [LawfulBEq α] {l : List (α × β)} {k : α} {v : β}
    (h1 : ∃ p ∈ l, p.1 = k) (h2 : ∀ p ∈ l, p.1 = k → p.2 = v) : l.lookup k = some v := by
  induction l with
  | nil => simp at h1
  | cons p t ih =>
    rw [List.lookup]
    by_cases hk : k = p.1
    · rw [show (k == p.1) = true from beq_iff_eq.mpr hk]
      exact congrArg some (h2 p (List.mem_cons_self _ _) hk.symm)
    · rw [show (k == p.1) = false from beq_eq_false_iff_ne.mpr hk]
      apply ih
      · rcases h1 with ⟨q, hq, hqk⟩
        rcases List.mem_cons.mp hq with rfl | hq2
        · exact absurd hqk.symm hk
        · exact ⟨q, hq2, hqk⟩
      · exact fun q hq hqk => h2 q (List.mem_cons_of_mem _ hq) hqk

theorem assoc_inj_right {α β : Type} {l : List (α × β)} {k1 k2 : α} {v : β}
    (h : (l.map Prod.snd).Nodup) (h1 : (k1, v) ∈ l) (h2 : (k2, v) ∈ l) : k1 = k2 := by
  induction l with
  | nil => simp at h1
  | cons p t ih =>
    rw [List.map_cons, List.nodup_cons] at h
    rcases List.mem_cons.mp h1 with e1 | e1 <;> rcases List.mem_cons.mp h2 with e2 | e2
    · have : (k1, v) = (k2, v) := e1.trans e2.symm
      exact congrArg Prod.fst this
    · exact absurd (List.mem_map.mpr ⟨(k2, v), e2, by rw [← e1]⟩) h.1
    · exact absurd (List.mem_map.mpr ⟨(k1, v), e1, by rw [← e2]⟩) h.1
    · exact ih h.2 e1 e2

theorem assoc_inj_left {α β : Type} {l : List (α × β)} {k : α} {v1 v2 : β}
    (h : (l.map Prod.fst).Nodup) (h1 : (k, v1) ∈ l) (h2 : (k, v2) ∈ l) : v1 = v2 := by
  induction l with
  | nil => simp at h1
  | cons p t ih =>
    rw [List.map_cons, List.nodup_cons] at h
    rcases List.mem_cons.mp h1 with e1 | e1 <;> rcases List.mem_cons.mp h2 with e2 | e2
    · have : (k, v1) = (k, v2) := e1.trans e2.symm
      exact congrArg Prod.snd this
    · exact absurd (List.mem_map.mpr ⟨(k, v2), e2, by rw [← e1]⟩) h.1
    · exact absurd (List.mem_map.mpr ⟨(k, v1), e1, by rw [← e2]⟩) h.1
    · exact ih h.2 e1 e2

/-! ## Epsilon closure lemmas -/

theorem NFA.estep_subset (nfa : NFA) (S : Finset Nat) : S ⊆ nfa.estep S :=
  Finset.subset_union_left

theorem NFA.estep_mono (nfa : NFA) {S T : Finset Nat} (h : S ⊆ T) :
    nfa.estep S ⊆ nfa.estep T := by
  unfold NFA.estep
  exact Finset.union_subset_union h (Finset.biUnion_subset_biUnion_of_subset_left _ h)

theorem NFA.estep_subset_union_univ (nfa : NFA) (S : Finset Nat) :
    nfa.estep S ⊆ S ∪ nfa.stateUniv := by
  unfold NFA.estep
  apply Finset.union_subset Finset.subset_union_left
  intro t ht
  obtain ⟨s, _, h⟩ := Finset.mem_biUnion.mp ht
  exact Finset.mem_union_right _ (NFA.next_states_subset_univ h)

theorem NFA.iterate_estep_subset (nfa : NFA) :
    ∀ (n : Nat) (S : Finset Nat), S ⊆ (nfa.estep)^[n] S := by
  intro n
  induction n with
  | zero => intro S; simp
  | succ n ih =>
    intro S
    rw [Function.iterate_succ_apply]
    exact (nfa.estep_subset S).trans (ih (nfa.estep S))

theorem NFA.iterate_estep_subset_union_univ (nfa : NFA) :
    ∀ (n : Nat) (S : Finset Nat), (nfa.estep)^[n] S ⊆ S ∪ nfa.stateUniv := by
  intro n
  induction n with
  | zero => intro S; simp
  | succ n ih =>
    intro S
    rw [Function.iterate_succ_apply]
    refine (ih (nfa.estep S)).trans ?_
    refine Finset.union_subset ((nfa.estep_subset_union_univ S).trans ?_) ?_
    · exact Finset.union_subset_union (le_refl _) (le_refl _)
    · exact Finset.subset_union_right

theorem NFA.subset_eclosure (nfa : NFA) (S : Finset Nat) : S ⊆ nfa.eclosure S :=
  nfa.iterate_estep_subset _ S

theorem NFA.eclosure_subset_union_univ (nfa : NFA) (S : Finset Nat) :
    nfa.eclosure S ⊆ S ∪ nfa.stateUniv :=
  nfa.iterate_estep_subset_union_univ _ S

theorem NFA.eclosure_subset_univ (nfa : NFA) {S : Finset Nat} (h : S ⊆ nfa.stateUniv) :
    nfa.eclosure S ⊆ nfa.stateUniv :=
  (nfa.eclosure_subset_union_univ S).trans (Finset.union_subset h (le_refl _))

theorem NFA.estep_empty (nfa : NFA) : nfa.estep ∅ = ∅ := by
  unfold NFA.estep
  simp

theorem NFA.eclosure_empty (nfa : NFA) : nfa.eclosure ∅ = ∅ :=
  Function.iterate_fixed (nfa.estep_empty) _

/-- The fuelled iteration reaches the fixed point: eclosure really is
closed under estep. -/
theorem NFA.eclosure_closed (nfa : NFA) (S : Finset Nat) :
    nfa.estep (nfa.eclosure S) = nfa.eclosure S := by
  have stable : ∀ n, (nfa.estep)^[n + 1] S = (nfa.estep)^[n] S →
      ∀ m, (nfa.estep)^[n + m] S = (nfa.estep)^[n] S := by
    intro n h m
    induction m with
    | zero => rfl
    | succ m ih =>
      rw [show n + (m + 1) = (n + m) + 1 from rfl, Function.iterate_succ_apply', ih]
      calc nfa.estep ((nfa.estep)^[n] S) = (nfa.estep)^[n + 1] S :=
            (Function.iterate_succ_apply' _ _ _).symm
        _ = (nfa.estep)^[n] S := h
  have growth : ∀ n, (∀ k < n, (nfa.estep)^[k + 1] S ≠ (nfa.estep)^[k] S) →
      S.card + n ≤ ((nfa.estep)^[n] S).card := by
    intro n
    induction n with
    | zero => simp
    | succ n ih =>
      intro h
      have h1 := ih (fun k hk => h k (hk.trans (Nat.lt_succ_self n)))
      have hne := h n (Nat.lt_succ_self n)
      have hsub : (nfa.estep)^[n] S ⊆ (nfa.estep)^[n + 1] S := by
        rw [Function.iterate_succ_apply']
        exact nfa.estep_subset _
      have hlt : ((nfa.estep)^[n] S).card < ((nfa.estep)^[n + 1] S).card :=
        Finset.card_lt_card (Finset.ssubset_iff_subset_ne.mpr ⟨hsub, Ne.symm hne⟩)
      omega
  have bound : ∀ n, ((nfa.estep)^[n] S).card ≤ S.card + (nfa.stateUniv).card := by
    intro n
    calc ((nfa.estep)^[n] S).card ≤ (S ∪ nfa.stateUniv).card :=
          Finset.card_le_card (nfa.iterate_estep_subset_union_univ n S)
      _ ≤ S.card + (nfa.stateUniv).card := Finset.card_union_le _ _
  have hex : ∃ k ≤ (nfa.stateUniv).card, (nfa.estep)^[k + 1] S = (nfa.estep)^[k] S := by
    by_contra hc
    push_neg at hc
    have hg := growth ((nfa.stateUniv).card + 1) (fun k hk => hc k (by omega))
    have hb := bound ((nfa.stateUniv).card + 1)
    omega
  obtain ⟨k, hk, hfix⟩ := hex
  unfold NFA.eclosure NFA.closureFuel
  have h1 : (nfa.estep)^[(nfa.stateUniv).card + 1] S = (nfa.estep)^[k] S := by
    have he : (nfa.stateUniv).card + 1 = k + ((nfa.stateUniv).card + 1 - k) := by omega
    rw [he]
    exact stable k hfix _
  rw [h1]
  calc nfa.estep ((nfa.estep)^[k] S) = (nfa.estep)^[k + 1] S :=
        (Function.iterate_succ_apply' _ _ _).symm
    _ = (nfa.estep)^[k] S := hfix

/-- The fuelled iteration computes the least closed superset. -/
theorem NFA.eclosure_minimal (nfa : NFA) {S T : Finset Nat} (h1 : S ⊆ T)
    (h2 : nfa.estep T = T) : nfa.eclosure S ⊆ T := by
  suffices h : ∀ n, (nfa.estep)^[n] S ⊆ T from h _
  intro n
  induction n with
  | zero => exact h1
  | succ n ih =>
    rw [Function.iterate_succ_apply']
    exact (nfa.estep_mono ih).trans (le_of_eq h2)

theorem NFA.eclosure_congr {nfa : NFA} {S T : Finset Nat} (h : S = T) :
    nfa.eclosure S = nfa.eclosure T := by rw [h]

/-! ## get_state lemmas -/

theorem get_state_found {ctx : DFAContext} {L : List Nat} {d : Nat}
    (h : ctx.statemap.lookup (sortStates L) = some d) : ctx.get_state L = (d, ctx) := by
  unfold DFAContext.get_state
  rw [h]

theorem get_state_new {ctx : DFAContext} {L : List Nat}
    (h : ctx.statemap.lookup (sortStates L) = none) :
    ctx.get_state L =
      (ctx.states, ⟨ctx.states + 1, (sortStates L, ctx.states) :: ctx.statemap⟩) := by
  unfold DFAContext.get_state
  rw [h]

theorem get_state_statemap_mono {ctx : DFAContext} {L : List Nat}
    {p : List Nat × Nat} (h : p ∈ ctx.statemap) : p ∈ (ctx.get_state L).2.statemap := by
  cases hl : ctx.statemap.lookup (sortStates L) with
  | some d => rw [get_state_found hl]; exact h
  | none => rw [get_state_new hl]; exact List.mem_cons_of_mem _ h

theorem get_state_mem_self (ctx : DFAContext) (L : List Nat) :
    (sortStates L, (ctx.get_state L).1) ∈ (ctx.get_state L).2.statemap := by
  cases hl : ctx.statemap.lookup (sortStates L) with
  | some d => rw [get_state_found hl]; exact lookup_mem hl
  | none => rw [get_state_new hl]; exact List.mem_cons_self _ _

theorem get_state_states_mono (ctx : DFAContext) (L : List Nat) :
    ctx.states ≤ (ctx.get_state L).2.states := by
  cases hl : ctx.statemap.lookup (sortStates L) with
  | some d => rw [get_state_found hl]
  | none => rw [get_state_new hl]; exact Nat.le_succ _

theorem DFAContext.WF.id_lt_of_mem {ctx : DFAContext} (h : ctx.WF)
    {p : List Nat × Nat} (hp : p ∈ ctx.statemap) : p.2 < ctx.states := by
  have hm : p.2 ∈ ctx.statemap.map Prod.snd := List.mem_map.mpr ⟨p, hp, rfl⟩
  rw [h.1, List.mem_reverse, List.mem_range] at hm
  exact hm

theorem DFAContext.WF.snd_nodup {ctx : DFAContext} (h : ctx.WF) :
    (ctx.statemap.map Prod.snd).Nodup := by
  rw [h.1]
  exact List.nodup_reverse.mpr (List.nodup_range _)

theorem get_state_WF {ctx : DFAContext} (h : ctx.WF) (L : List Nat) :
    (ctx.get_state L).2.WF := by
  cases hl : ctx.statemap.lookup (sortStates L) with
  | some d => rw [get_state_found hl]; exact h
  | none =>
    rw [get_state_new hl]
    refine ⟨?_, ?_, ?_⟩
    · simp only [List.map_cons, h.1, List.range_succ, List.reverse_append, List.reverse_singleton,
        List.singleton_append]
    · simp only [List.map_cons, List.nodup_cons]
      constructor
      · intro hc
        obtain ⟨p, hp, he⟩ := List.mem_map.mp hc
        exact (lookup_eq_none_iff.mp hl) p hp he
      · exact h.2.1
    · intro p hp
      rcases List.mem_cons.mp hp with rfl | hp2
      · exact sortStates_sorted L
      · exact h.2.2 p hp2

theorem get_state_id_lt {ctx : DFAContext} (h : ctx.WF) (L : List Nat) :
    (ctx.get_state L).1 < (ctx.get_state L).2.states := by
  cases hl : ctx.statemap.lookup (sortStates L) with
  | some d =>
    rw [get_state_found hl]
    exact h.id_lt_of_mem (lookup_mem hl)
  | none =>
    rw [get_state_new hl]
    exact Nat.lt_succ_self _

/-- A further get_state call returns the memoized id of an existing
entry whose key is the sorted argument. -/
theorem get_state_eq_of_mem {ctx : DFAContext} (h : ctx.WF) {L : List Nat} {d : Nat}
    (hm : (sortStates L, d) ∈ ctx.statemap) : ctx.get_state L = (d, ctx) :=
  get_state_found (lookup_eq_some_of_mem h.2.1 hm)

theorem applyCalls_statemap_mono {ctx : DFAContext} {ls : List (List Nat)}
    {p : List Nat × Nat} (h : p ∈ ctx.statemap) :
    p ∈ (ctx.applyCalls ls).statemap := by
  induction ls generalizing ctx with
  | nil => exact h
  | cons l t ih => exact ih (get_state_statemap_mono h)

theorem applyCalls_WF {ctx : DFAContext} (h : ctx.WF) (ls : List (List Nat)) :
    (ctx.applyCalls ls).WF := by
  induction ls generalizing ctx with
  | nil => exact h
  | cons l t ih => exact ih (get_state_WF h l)

/-- Claim C3, as stated, is false: Context::get_state sorts its argument
but does not deduplicate it, so argument lists denoting the same set of
NFA states but with a duplicated entry receive distinct ids.  Concretely
in one construction the call with list of 0 gets id 0 and the call with
list of 0, 0 gets id 1 although both denote the set containing 0. -/
theorem c3_counterexample :
    ([0] : List Nat).toFinset = ([0, 0] : List Nat).toFinset ∧
    ((⟨0, []⟩ : DFAContext).get_state [0]).1 ≠
      ((((⟨0, []⟩ : DFAContext).get_state [0]).2).get_state [0, 0]).1 := by
  decide

/-- Claim C3, amended: within one construction (any well-formed memo
state, any interleaved further calls), two Context::get_state calls
return the same Nat id if and only if their argument lists are
equal after sorting (order irrelevant, multiplicities significant); in
particular set-unequal argument lists always receive distinct ids, but
set-equal lists that differ in duplicate entries also receive distinct
ids. -/
theorem c3_get_state_canonicalization (ctx : DFAContext) (h : ctx.WF)
    (L1 : List Nat) (ls : List (List Nat)) (L2 : List Nat) :
    (((((ctx.get_state L1).2).applyCalls ls).get_state L2).1 = (ctx.get_state L1).1 ↔
      sortStates L2 = sortStates L1) := by
  have h1 : (sortStates L1, (ctx.get_state L1).1) ∈ (ctx.get_state L1).2.statemap :=
    get_state_mem_self ctx L1
  have h2 : (sortStates L1, (ctx.get_state L1).1) ∈
      (((ctx.get_state L1).2).applyCalls ls).statemap := applyCalls_statemap_mono h1
  have hwf : (((ctx.get_state L1).2).applyCalls ls).WF :=
    applyCalls_WF (get_state_WF h L1) ls
  cases hl : (((ctx.get_state L1).2).applyCalls ls).statemap.lookup (sortStates L2) with
  | some d =>
    rw [get_state_found hl]
    show d = (ctx.get_state L1).1 ↔ _
    constructor
    · intro he
      exact assoc_inj_right hwf.snd_nodup (lookup_mem hl) (by rw [he]; exact h2)
    · intro he
      have hsome := lookup_eq_some_of_mem hwf.2.1 (show (sortStates L2, (ctx.get_state L1).1) ∈ _
        from by rw [he]; exact h2)
      rw [hl] at hsome
      exact (Option.some.injEq _ _).mp hsome
  | none =>
    rw [get_state_new hl]
    show (((ctx.get_state L1).2).applyCalls ls).states = (ctx.get_state L1).1 ↔ _
    constructor
    · intro he
      have hlt := hwf.id_lt_of_mem h2
      rw [← he] at hlt
      exact absurd hlt (lt_irrefl _)
    · intro he
      have hsome := lookup_eq_some_of_mem hwf.2.1 (show (sortStates L2, (ctx.get_state L1).1) ∈ _
        from by rw [he]; exact h2)
      rw [hl] at hsome
      simp at hsome

/-- Well-formedness of the fresh memo of Context::new. -/
theorem emptyContext_WF : (⟨0, []⟩ : DFAContext).WF :=
  ⟨rfl, List.nodup_nil, fun p hp => absurd hp (List.not_mem_nil p)⟩

/-- Witness for c3_get_state_canonicalization at the empty memo with the
lists with entries 1, 0 and 0, 1 and an interleaved call. -/
theorem c3_get_state_canonicalization_witness :
    (⟨0, []⟩ : DFAContext).WF ∧
    (((((((⟨0, []⟩ : DFAContext).get_state [1, 0]).2).applyCalls [[5]]).get_state [0, 1]).1 =
        ((⟨0, []⟩ : DFAContext).get_state [1, 0]).1) ↔
      sortStates [0, 1] = sortStates [1, 0]) :=
  ⟨emptyContext_WF, c3_get_state_canonicalization ⟨0, []⟩ emptyContext_WF [1, 0] [[5]] [0, 1]⟩

/-- Claim C7: Node::assemble on Star(sub) builds the fragment for sub,
allocates exactly one new state s (the counter advances by one), and
returns the NFA with start s, accepting set frag.accepts united with s,
and transitions exactly the fragment transitions plus the epsilon edge
from s to frag.start plus, for every accepting state a of the fragment,
an epsilon edge from a to frag.start. -/
theorem c7_star_assemble (sub : Node) (ctx : NFAContext) :
    (Node.star sub).assemble ctx =
      ({ start := ((sub.assemble ctx).2).states,
         accepts := (sub.assemble ctx).1.accepts ∪ {((sub.assemble ctx).2).states},
         transition := (sub.assemble ctx).1.transition ∪
           {(((sub.assemble ctx).2).states, (none : Option Char), (sub.assemble ctx).1.start)} ∪
           (sub.assemble ctx).1.accepts.image
             (fun a => (a, (none : Option Char), (sub.assemble ctx).1.start)) },
       ⟨((sub.assemble ctx).2).states + 1⟩) := by
  rcases hfa : sub.assemble ctx with ⟨frag, ctx1⟩
  simp only [Node.assemble, hfa, NFA.new, NFA.merge_transition, NFA.add_empty_transition,
    NFA.add_empty_transitions_from, NFAContext.new_state, Prod.mk.injEq, NFA.mk.injEq]
  refine ⟨⟨trivial, trivial, ?_⟩, trivial⟩
  ext x
  simp only [Finset.mem_insert, Finset.mem_union, Finset.empty_union, Finset.mem_singleton]
  tauto

/-- Claim C8: compiling the same tree twice, each time from a freshly
reset state-id counter (Context with states = 0), produces structurally
identical NFAs: same start id, same accepting set, same transition
relation.  (In this embedding Node::assemble is a pure function of the
tree and the counter; the HashSet iteration order of the Rust loops does
not influence the produced sets.) -/
theorem c8_determinism (t : Node) (c1 c2 : NFAContext) (h1 : c1 = ⟨0⟩) (h2 : c2 = ⟨0⟩) :
    (t.assemble c1).1.start = (t.assemble c2).1.start ∧
    (t.assemble c1).1.accepts = (t.assemble c2).1.accepts ∧
    (t.assemble c1).1.transition = (t.assemble c2).1.transition := by
  subst h1
  subst h2
  exact ⟨rfl, rfl, rfl⟩

/-- Witness for c8_determinism at the tree Character a. -/
theorem c8_determinism_witness :
    ((Node.character 'a').assemble ⟨0⟩).1.start = ((Node.character 'a').assemble ⟨0⟩).1.start ∧
    ((Node.character 'a').assemble ⟨0⟩).1.accepts = ((Node.character 'a').assemble ⟨0⟩).1.accepts ∧
    ((Node.character 'a').assemble ⟨0⟩).1.transition =
      ((Node.character 'a').assemble ⟨0⟩).1.transition :=
  c8_determinism (Node.character 'a') ⟨0⟩ ⟨0⟩ rfl rfl

/-! ## Matcher lemmas (claim C6) -/

theorem matchesFrom_iff_run (dfa : DFA) :
    ∀ (s : List Char) (d : Nat),
      (dfa.matchesFrom d s = true ↔ ∃ f, dfa.run d s = some f ∧ f ∈ dfa.accepts) := by
  intro s
  induction s with
  | nil =>
    intro d
    simp [DFA.matchesFrom, DFA.run]
  | cons c rest ih =>
    intro d
    cases h : dfa.next_state d c with
    | some d2 =>
      simp only [DFA.matchesFrom, DFA.run, h]
      exact ih d2
    | none =>
      simp [DFA.matchesFrom, DFA.run, h]

/-- Claim C6: Regex::matches starts at the DFA start state and consumes
symbols left to right (it equals the state-threading run with acceptance
tested at the end); at the first symbol with no (state, symbol)
transition it returns false immediately, whatever the remaining input
is; and a symbol absent from the transition table altogether (never seen
during construction) always yields false, never an error. -/
theorem c6_matcher (re : Regex) (d : Nat) (c : Char) (s rest : List Char) :
    (re.matches s = true ↔ ∃ f, re.dfa.run re.dfa.start s = some f ∧ f ∈ re.dfa.accepts) ∧
    (re.dfa.next_state d c = none → re.dfa.matchesFrom d (c :: rest) = false) ∧
    ((∀ e ∈ re.dfa.transition, e.1.2 ≠ c) → re.dfa.matchesFrom d (c :: rest) = false) := by
  refine ⟨matchesFrom_iff_run re.dfa s re.dfa.start, ?_, ?_⟩
  · intro hnone
    simp [DFA.matchesFrom, hnone]
  · intro hunseen
    have hnone : re.dfa.next_state d c = none := by
      unfold DFA.next_state
      rw [lookup_eq_none_iff]
      intro p hp he
      exact hunseen p hp (by rw [he])
    simp [DFA.matchesFrom, hnone]

/-- Witness for c6_matcher at the empty DFA and input a. -/
theorem c6_matcher_witness :
    ((⟨⟨0, ∅, []⟩⟩ : Regex).matches ['a'] = true ↔
      ∃ f, (⟨0, ∅, []⟩ : DFA).run 0 ['a'] = some f ∧ f ∈ (⟨0, ∅, []⟩ : DFA).accepts) ∧
    (⟨0, ∅, []⟩ : DFA).matchesFrom 0 ['a'] = false ∧
    (⟨0, ∅, []⟩ : DFA).matchesFrom 0 ['a'] = false :=
  ⟨(c6_matcher ⟨⟨0, ∅, []⟩⟩ 0 'a' ['a'] []).1,
    (c6_matcher ⟨⟨0, ∅, []⟩⟩ 0 'a' ['a'] []).2.1 (by decide),
    (c6_matcher ⟨⟨0, ∅, []⟩⟩ 0 'a' ['a'] []).2.2 (by simp)⟩

/-! ## The structural invariant of Thompson construction -/

theorem assemble_inv (t : Node) : ∀ ctx : NFAContext, AssembleInv t ctx := by
  induction t with
  | character c =>
    intro ctx
    simp only [AssembleInv, Node.assemble, NFAContext.new_state, NFA.new, NFA.add_transition]
    refine ⟨by omega, ⟨le_refl _, by omega⟩, ?_, ?_, ?_, ?_⟩
    · intro a ha
      rw [Finset.mem_singleton] at ha
      omega
    · intro e he
      obtain ⟨e1, e2, e3⟩ := e
      dsimp only
      simp only [Finset.mem_insert, Finset.not_mem_empty, or_false, Prod.mk.injEq] at he
      obtain ⟨rfl, -, rfl⟩ := he
      omega
    · intro e he hsome u hu
      obtain ⟨e1, e2, e3⟩ := e
      simp only [Finset.mem_insert, Finset.not_mem_empty, or_false, Prod.mk.injEq] at he hu
      obtain ⟨rfl, rfl, rfl⟩ := he
      exact Option.noConfusion hu.2.1
    · intro a ha c2 u hu
      rw [Finset.mem_singleton] at ha
      simp only [Finset.mem_insert, Finset.not_mem_empty, or_false, Prod.mk.injEq] at hu
      omega
  | empty =>
    intro ctx
    simp only [AssembleInv, Node.assemble, NFAContext.new_state, NFA.new,
      NFA.add_empty_transition]
    refine ⟨by omega, ⟨le_refl _, by omega⟩, ?_, ?_, ?_, ?_⟩
    · intro a ha
      rw [Finset.mem_singleton] at ha
      omega
    · intro e he
      obtain ⟨e1, e2, e3⟩ := e
      dsimp only
      simp only [Finset.mem_insert, Finset.not_mem_empty, or_false, Prod.mk.injEq] at he
      obtain ⟨rfl, -, rfl⟩ := he
      omega
    · intro e he hsome u hu
      obtain ⟨e1, e2, e3⟩ := e
      simp only [Finset.mem_insert, Finset.not_mem_empty, or_false, Prod.mk.injEq] at he
      obtain ⟨rfl, rfl, rfl⟩ := he
      simp at hsome
    · intro a ha c2 u hu
      rw [Finset.mem_singleton] at ha
      simp only [Finset.mem_insert, Finset.not_mem_empty, or_false, Prod.mk.injEq] at hu
      omega
  | star node ih =>
    intro ctx
    have IH := ih ctx
    rcases hfa : node.assemble ctx with ⟨frag, ctx1⟩
    simp only [AssembleInv, hfa] at IH
    obtain ⟨IH1, ⟨IH2a, IH2b⟩, IH3, IH4, IH5, IH6⟩ := IH
    simp only [AssembleInv, Node.assemble, hfa, NFAContext.new_state, NFA.new,
      NFA.merge_transition, NFA.add_empty_transition, NFA.add_empty_transitions_from,
      Finset.empty_union]
    refine ⟨by omega, ⟨by omega, by omega⟩, ?_, ?_, ?_, ?_⟩
    · intro a ha
      rcases Finset.mem_union.mp ha with ha | ha
      · have := IH3 a ha
        omega
      · rw [Finset.mem_singleton] at ha
        omega
    · intro e he
      obtain ⟨e1, e2, e3⟩ := e
      dsimp only
      rcases Finset.mem_union.mp he with he | he
      · rcases Finset.mem_insert.mp he with he | he
        · simp only [Prod.mk.injEq] at he
          obtain ⟨rfl, -, rfl⟩ := he
          omega
        · have := IH4 _ he
          dsimp only at this
          omega
      · rcases Finset.mem_image.mp he with ⟨a, ha, he⟩
        simp only [Prod.mk.injEq] at he
        obtain ⟨rfl, -, rfl⟩ := he
        have := IH3 a ha
        omega
    · intro e he hsome u hu
      obtain ⟨e1, e2, e3⟩ := e
      dsimp only at hsome hu ⊢
      obtain ⟨c2, rfl⟩ := Option.isSome_iff_exists.mp hsome
      rcases Finset.mem_union.mp he with he | he
      · rcases Finset.mem_insert.mp he with he | he
        · simp only [Prod.mk.injEq] at he
          exact Option.noConfusion he.2.1
        · -- e is a fragment character edge
          have hrange := (IH4 _ he).1
          dsimp only at hrange
          rcases Finset.mem_union.mp hu with hu | hu
          · rcases Finset.mem_insert.mp hu with hu | hu
            · simp only [Prod.mk.injEq] at hu
              omega
            · exact IH5 _ he rfl u hu
          · rcases Finset.mem_image.mp hu with ⟨a, ha, hu⟩
            simp only [Prod.mk.injEq] at hu
            obtain ⟨rfl, -, -⟩ := hu
            exact IH6 a ha c2 e3 he
      · rcases Finset.mem_image.mp he with ⟨a, ha, he⟩
        simp only [Prod.mk.injEq] at he
        exact Option.noConfusion he.2.1
    · intro a ha c2 u hu
      rcases Finset.mem_union.mp ha with ha | ha
      · -- a is a fragment accept state
        rcases Finset.mem_union.mp hu with hu | hu
        · rcases Finset.mem_insert.mp hu with hu | hu
          · simp only [Prod.mk.injEq] at hu
            have := IH3 a ha
            omega
          · exact IH6 a ha c2 u hu
        · rcases Finset.mem_image.mp hu with ⟨b, hb, hu⟩
          simp only [Prod.mk.injEq] at hu
          exact Option.noConfusion hu.2.1
      · -- a is the fresh state
        rw [Finset.mem_singleton] at ha
        subst ha
        rcases Finset.mem_union.mp hu with hu | hu
        · rcases Finset.mem_insert.mp hu with hu | hu
          · simp only [Prod.mk.injEq] at hu
            exact Option.noConfusion hu.2.1
          · have := (IH4 _ hu).1
            dsimp only at this
            omega
        · rcases Finset.mem_image.mp hu with ⟨b, hb, hu⟩
          simp only [Prod.mk.injEq] at hu
          exact Option.noConfusion hu.2.1
  | union n1 n2 ih1 ih2 =>
    intro ctx
    have IHa := ih1 ctx
    rcases hf1 : n1.assemble ctx with ⟨frag1, ctx1⟩
    have IHb := ih2 ctx1
    rcases hf2 : n2.assemble ctx1 with ⟨frag2, ctx2⟩
    simp only [AssembleInv, hf1] at IHa
    simp only [AssembleInv, hf2] at IHb
    obtain ⟨IHa1, ⟨IHa2a, IHa2b⟩, IHa3, IHa4, IHa5, IHa6⟩ := IHa
    obtain ⟨IHb1, ⟨IHb2a, IHb2b⟩, IHb3, IHb4, IHb5, IHb6⟩ := IHb
    simp only [AssembleInv, Node.assemble, hf1, hf2, NFAContext.new_state, NFA.new,
      NFA.merge_transition, NFA.add_empty_transition, NFA.add_empty_transitions_from,
      Finset.empty_union]
    refine ⟨by omega, ⟨by omega, by omega⟩, ?_, ?_, ?_, ?_⟩
    · intro a ha
      rcases Finset.mem_union.mp ha with ha | ha
      · have := IHa3 a ha
        omega
      · have := IHb3 a ha
        omega
    · intro e he
      obtain ⟨e1, e2, e3⟩ := e
      dsimp only
      rcases Finset.mem_insert.mp he with he | he
      · simp only [Prod.mk.injEq] at he
        obtain ⟨rfl, -, rfl⟩ := he
        omega
      · rcases Finset.mem_insert.mp he with he | he
        · simp only [Prod.mk.injEq] at he
          obtain ⟨rfl, -, rfl⟩ := he
          omega
        · rcases Finset.mem_union.mp he with he | he
          · have := IHa4 _ he
            dsimp only at this
            omega
          · have := IHb4 _ he
            dsimp only at this
            omega
    · intro e he hsome u hu
      obtain ⟨e1, e2, e3⟩ := e
      dsimp only at hsome hu ⊢
      obtain ⟨c2, rfl⟩ := Option.isSome_iff_exists.mp hsome
      rcases Finset.mem_insert.mp he with he | he
      · simp only [Prod.mk.injEq] at he
        exact Option.noConfusion he.2.1
      · rcases Finset.mem_insert.mp he with he | he
        · simp only [Prod.mk.injEq] at he
          exact Option.noConfusion he.2.1
        · rcases Finset.mem_union.mp he with he | he
          · -- char edge of frag1
            have hrange := (IHa4 _ he).1
            dsimp only at hrange
            rcases Finset.mem_insert.mp hu with hu | hu
            · simp only [Prod.mk.injEq] at hu
              omega
            · rcases Finset.mem_insert.mp hu with hu | hu
              · simp only [Prod.mk.injEq] at hu
                omega
              · rcases Finset.mem_union.mp hu with hu | hu
                · exact IHa5 _ he rfl u hu
                · have := (IHb4 _ hu).1
                  dsimp only at this
                  omega
          · -- char edge of frag2
            have hrange := (IHb4 _ he).1
            dsimp only at hrange
            rcases Finset.mem_insert.mp hu with hu | hu
            · simp only [Prod.mk.injEq] at hu
              omega
            · rcases Finset.mem_insert.mp hu with hu | hu
              · simp only [Prod.mk.injEq] at hu
                omega
              · rcases Finset.mem_union.mp hu with hu | hu
                · have := (IHa4 _ hu).1
                  dsimp only at this
                  omega
                · exact IHb5 _ he rfl u hu
    · intro a ha c2 u hu
      rcases Finset.mem_union.mp ha with ha | ha
      · have har := IHa3 a ha
        rcases Finset.mem_insert.mp hu with hu | hu
        · simp only [Prod.mk.injEq] at hu
          exact Option.noConfusion hu.2.1
        · rcases Finset.mem_insert.mp hu with hu | hu
          · simp only [Prod.mk.injEq] at hu
            exact Option.noConfusion hu.2.1
          · rcases Finset.mem_union.mp hu with hu | hu
            · exact IHa6 a ha c2 u hu
            · have := (IHb4 _ hu).1
              dsimp only at this
              omega
      · have har := IHb3 a ha
        rcases Finset.mem_insert.mp hu with hu | hu
        · simp only [Prod.mk.injEq] at hu
          exact Option.noConfusion hu.2.1
        · rcases Finset.mem_insert.mp hu with hu | hu
          · simp only [Prod.mk.injEq] at hu
            exact Option.noConfusion hu.2.1
          · rcases Finset.mem_union.mp hu with hu | hu
            · have := (IHa4 _ hu).1
              dsimp only at this
              omega
            · exact IHb6 a ha c2 u hu
  | concat n1 n2 ih1 ih2 =>
    intro ctx
    have IHa := ih1 ctx
    rcases hf1 : n1.assemble ctx with ⟨frag1, ctx1⟩
    have IHb := ih2 ctx1
    rcases hf2 : n2.assemble ctx1 with ⟨frag2, ctx2⟩
    simp only [AssembleInv, hf1] at IHa
    simp only [AssembleInv, hf2] at IHb
    obtain ⟨IHa1, ⟨IHa2a, IHa2b⟩, IHa3, IHa4, IHa5, IHa6⟩ := IHa
    obtain ⟨IHb1, ⟨IHb2a, IHb2b⟩, IHb3, IHb4, IHb5, IHb6⟩ := IHb
    simp only [AssembleInv, Node.assemble, hf1, hf2, NFAContext.new_state, NFA.new,
      NFA.merge_transition, NFA.add_empty_transitions_from, Finset.empty_union]
    refine ⟨by omega, ⟨by omega, by omega⟩, ?_, ?_, ?_, ?_⟩
    · intro a ha
      have := IHb3 a ha
      omega
    · intro e he
      obtain ⟨e1, e2, e3⟩ := e
      dsimp only
      rcases Finset.mem_union.mp he with he | he
      · rcases Finset.mem_union.mp he with he | he
        · have := IHa4 _ he
          dsimp only at this
          omega
        · have := IHb4 _ he
          dsimp only at this
          omega
      · rcases Finset.mem_image.mp he with ⟨a, ha, he⟩
        simp only [Prod.mk.injEq] at he
        obtain ⟨rfl, -, rfl⟩ := he
        have h1 := IHa3 a ha
        omega
    · intro e he hsome u hu
      obtain ⟨e1, e2, e3⟩ := e
      dsimp only at hsome hu ⊢
      obtain ⟨c2, rfl⟩ := Option.isSome_iff_exists.mp hsome
      rcases Finset.mem_union.mp he with he | he
      · rcases Finset.mem_union.mp he with he | he
        · -- char edge of frag1
          have hrange := (IHa4 _ he).1
          dsimp only at hrange
          rcases Finset.mem_union.mp hu with hu | hu
          · rcases Finset.mem_union.mp hu with hu | hu
            · exact IHa5 _ he rfl u hu
            · have := (IHb4 _ hu).1
              dsimp only at this
              omega
          · rcases Finset.mem_image.mp hu with ⟨a, ha, hu⟩
            simp only [Prod.mk.injEq] at hu
            obtain ⟨rfl, -, -⟩ := hu
            exact IHa6 a ha c2 e3 he
        · -- char edge of frag2
          have hrange := (IHb4 _ he).1
          dsimp only at hrange
          rcases Finset.mem_union.mp hu with hu | hu
          · rcases Finset.mem_union.mp hu with hu | hu
            · have := (IHa4 _ hu).1
              dsimp only at this
              omega
            · exact IHb5 _ he rfl u hu
          · rcases Finset.mem_image.mp hu with ⟨a, ha, hu⟩
            simp only [Prod.mk.injEq] at hu
            obtain ⟨rfl, -, -⟩ := hu
            have := IHa3 a ha
            omega
      · rcases Finset.mem_image.mp he with ⟨a, ha, he⟩
        simp only [Prod.mk.injEq] at he
        exact Option.noConfusion he.2.1
    · intro a ha c2 u hu
      have har := IHb3 a ha
      rcases Finset.mem_union.mp hu with hu | hu
      · rcases Finset.mem_union.mp hu with hu | hu
        · have := (IHa4 _ hu).1
          dsimp only at this
          omega
        · exact IHb6 a ha c2 u hu
      · rcases Finset.mem_image.mp hu with ⟨b, hb, hu⟩
        simp only [Prod.mk.injEq] at hu
        exact Option.noConfusion hu.2.1

/-- Every NFA produced by NFA::from_node satisfies the
character-source/epsilon separation invariant. -/
theorem from_node_goodSources (t : Node) : (NFA.from_node t).goodSources := by
  intro e he hsome
  have inv := assemble_inv t ⟨0⟩
  obtain ⟨-, -, -, -, h5, -⟩ := inv
  rw [Finset.eq_empty_iff_forall_not_mem]
  intro x hx
  rw [NFA.mem_next_states] at hx
  exact h5 e he hsome x hx

/-- Claim C9: in every NFA produced by Node::assemble (from a fresh
counter, i.e. NFA::from_node), no state has both a character-labelled
out-transition and an epsilon out-transition: every source of a
Some-labelled edge has an empty epsilon-successor set. -/
theorem c9_no_mixed_out_transitions (t : Node) (s u : Nat) (c : Char)
    (h : (s, some c, u) ∈ (NFA.from_node t).transition) :
    (NFA.from_node t).next_states s none = ∅ :=
  from_node_goodSources t (s, some c, u) h rfl

/-- Witness for c9_no_mixed_out_transitions at the tree Character a. -/
theorem c9_no_mixed_out_transitions_witness :
    (0, some 'a', 1) ∈ (NFA.from_node (Node.character 'a')).transition ∧
    (NFA.from_node (Node.character 'a')).next_states 0 none = ∅ :=
  ⟨by decide, c9_no_mixed_out_transitions (Node.character 'a') 0 1 'a' (by decide)⟩

/-- Claim C2, as stated, is false: on a pattern text consisting of a
single backslash, Lexer::scan hits its expect (panic) on end of input,
so Regex::new terminates abnormally instead of returning Ok or a
structured Err. -/
theorem c2_counterexample : Regex.new ['\\'] = CompileResult.panicked := by rfl

/-- Claim C4, as stated, is false for general NFAs: on the NFA with
start 0, edges 0 -a-> 1 and 0 -epsilon-> 2, the canonical start set is
the list 0, 2 and the destination recorded for it under a is the memo
key 1, 2 (id 1): it contains state 2, a direct epsilon successor of the
source state 0, whereas epsilon-closure(move({0,2}, a)) is just {1}. -/
theorem c4_counterexample :
    (subsetConstruction (⟨0, ∅, {(0, some 'a', 1), (0, none, 2)}⟩ : NFA)).2.trans.lookup (0, 'a') =
      some 1 ∧
    (subsetConstruction (⟨0, ∅, {(0, some 'a', 1), (0, none, 2)}⟩ : NFA)).2.ctx.statemap.lookup
      [1, 2] = some 1 ∧
    natRangeSorted ((⟨0, ∅, {(0, some 'a', 1), (0, none, 2)}⟩ : NFA).eclosure
      (moveSet (⟨0, ∅, {(0, some 'a', 1), (0, none, 2)}⟩ : NFA) ({0, 2} : Finset Nat) 'a')) =
      [1] ∧
    startList (⟨0, ∅, {(0, some 'a', 1), (0, none, 2)}⟩ : NFA) = [0, 2] ∧
    ([1] : List Nat) ≠ [1, 2] := by
  refine ⟨by decide, by decide, by decide, by decide, by decide⟩

/-- Claim C5, as stated, is false: on the NFA with start 0 and edges
0 -a-> 1, 0 -b-> 2, 2 -c-> 1, the canonical set {1} is pushed onto the
worklist twice during one run of DFA::from_nfa (once while expanding
{0}, and again while expanding {2}, because {1} has not been popped and
so is not in visited yet). -/
theorem c5_counterexample :
    (subsetConstruction
      (⟨0, ∅, {(0, some 'a', 1), (0, some 'b', 2), (2, some 'c', 1)}⟩ : NFA)).2.pushes.count
      [1] = 2 := by
  decide

/-- Claim C10: Regex::new on the empty pattern succeeds, and the
resulting recognizer accepts exactly the empty string: matches of the
empty input is true and matches of any nonempty input is false. -/
theorem c10_empty_pattern (s : List Char) (h : s ≠ []) :
    (Regex.new []).matchesResult [] = some true ∧
    (Regex.new []).matchesResult s = some false := by
  refine ⟨by decide, ?_⟩
  cases s with
  | nil => exact absurd rfl h
  | cons c rest =>
    have hre : Regex.new [] = CompileResult.ok ⟨⟨0, ({0} : Finset Nat), []⟩⟩ := by decide
    rw [hre]
    simp only [CompileResult.matchesResult, Regex.matches]
    simp [DFA.matchesFrom, DFA.next_state, List.lookup]

/-- Witness for c10_empty_pattern at the nonempty input a. -/
theorem c10_empty_pattern_witness :
    (['a'] : List Char) ≠ [] ∧
    ((Regex.new []).matchesResult [] = some true ∧
      (Regex.new []).matchesResult ['a'] = some false) :=
  ⟨by decide, c10_empty_pattern ['a'] (by decide)⟩

/-! ## Support lemmas for the worklist loop -/

theorem nodup_length_le {α : Type} [DecidableEq α] {l : List α} {s : Finset α}
    (h : l.Nodup) (h2 : ∀ x ∈ l, x ∈ s) : l.length ≤ s.card := by
  calc l.length = l.toFinset.card := (List.toFinset_card_of_nodup h).symm
    _ ≤ s.card := Finset.card_le_card (fun x hx => h2 x (List.mem_toFinset.mp hx))

theorem destList_sorted (nfa : NFA) (K : Finset Nat) (c : Char) :
    List.Sorted (· ≤ ·) (destList nfa K c) :=
  natRangeSorted_sorted _

theorem destList_nodup (nfa : NFA) (K : Finset Nat) (c : Char) :
    (destList nfa K c).Nodup :=
  natRangeSorted_nodup _

theorem sortStates_destList (nfa : NFA) (K : Finset Nat) (c : Char) :
    sortStates (destList nfa K c) = destList nfa K c :=
  sortStates_eq_self (destList_sorted nfa K c)

theorem destList_subset_univ (nfa : NFA) (K : Finset Nat) (c : Char) :
    ∀ x ∈ destList nfa K c, x ∈ nfa.stateUniv := by
  intro x hx
  rw [destList, mem_natRangeSorted] at hx
  exact nfa.eclosure_subset_univ destSeed_subset_univ hx

theorem destList_toFinset (nfa : NFA) (K : Finset Nat) (c : Char) :
    (destList nfa K c).toFinset = nfa.eclosure (destSeed nfa K c) :=
  natRangeSorted_toFinset _

theorem startList_sorted (nfa : NFA) : List.Sorted (· ≤ ·) (startList nfa) :=
  natRangeSorted_sorted _

theorem sortStates_startList (nfa : NFA) : sortStates (startList nfa) = startList nfa :=
  sortStates_eq_self (startList_sorted nfa)

theorem startList_nodup (nfa : NFA) : (startList nfa).Nodup :=
  natRangeSorted_nodup _

theorem startList_subset_univ (nfa : NFA) : ∀ x ∈ startList nfa, x ∈ nfa.stateUniv := by
  intro x hx
  rw [startList, mem_natRangeSorted] at hx
  refine nfa.eclosure_subset_univ ?_ hx
  intro y hy
  rw [Finset.mem_singleton] at hy
  subst hy
  unfold NFA.stateUniv
  exact Finset.mem_insert_self _ _

theorem startList_toFinset (nfa : NFA) : (startList nfa).toFinset = nfa.eclosure {nfa.start} :=
  natRangeSorted_toFinset _

/-- The memo never holds more entries than there are subsets of the
state universe: keys are distinct sorted duplicate-free lists over the
universe. -/
theorem statemap_length_le {nfa : NFA} {ctx : DFAContext} (hwf : ctx.WF)
    (hkeys : ∀ p ∈ ctx.statemap, p.1.Nodup ∧ ∀ x ∈ p.1, x ∈ nfa.stateUniv) :
    ctx.statemap.length ≤ 2 ^ (nfa.stateUniv).card := by
  classical
  have hinj : ((ctx.statemap.map Prod.fst).map List.toFinset).Nodup := by
    refine List.Nodup.map_on ?_ hwf.2.1
    intro l1 h1 l2 h2 he
    obtain ⟨p1, hp1, rfl⟩ := List.mem_map.mp h1
    obtain ⟨p2, hp2, rfl⟩ := List.mem_map.mp h2
    exact List.eq_of_perm_of_sorted
      (List.perm_of_nodup_nodup_toFinset_eq (hkeys p1 hp1).1 (hkeys p2 hp2).1 he)
      (hwf.2.2 p1 hp1) (hwf.2.2 p2 hp2)
  have hsub : ∀ x ∈ (ctx.statemap.map Prod.fst).map List.toFinset,
      x ∈ (nfa.stateUniv).powerset := by
    intro x hx
    obtain ⟨p, hp, rfl⟩ := List.mem_map.mp hx
    obtain ⟨q, hq, rfl⟩ := List.mem_map.mp hp
    rw [Finset.mem_powerset]
    intro y hy
    exact (hkeys q hq).2 y (List.mem_toFinset.mp hy)
  have := nodup_length_le hinj hsub
  rw [Finset.card_powerset] at this
  calc ctx.statemap.length = ((ctx.statemap.map Prod.fst).map List.toFinset).length := by
        simp
    _ ≤ 2 ^ (nfa.stateUniv).card := this

theorem visited_card_le {nfa : NFA} {st : SubsetState} (hInv : LoopInv nfa st) :
    st.visited.card ≤ st.ctx.statemap.length := by
  classical
  have hsub : st.visited ⊆ (st.ctx.statemap.map Prod.snd).toFinset := by
    intro d hd
    obtain ⟨K, hK⟩ := hInv.visited_sub d hd
    rw [List.mem_toFinset]
    exact List.mem_map.mpr ⟨(K, d), hK, rfl⟩
  calc st.visited.card ≤ (st.ctx.statemap.map Prod.snd).toFinset.card :=
        Finset.card_le_card hsub
    _ ≤ (st.ctx.statemap.map Prod.snd).length := List.toFinset_card_le _
    _ = st.ctx.statemap.length := by simp

theorem unvisitedTop_eq_true {st : SubsetState} (hwf : st.ctx.WF) {L : List Nat} {d : Nat}
    {rest : List (List Nat)} (hw : st.waiting = L :: rest) (hsort : sortStates L = L)
    (hmem : (L, d) ∈ st.ctx.statemap) (hd : d ∉ st.visited) : unvisitedTop st = true := by
  unfold unvisitedTop
  rw [hw]
  show (match st.ctx.statemap.lookup (sortStates L) with
    | some d => decide (d ∉ st.visited) | none => true) = true
  rw [hsort, lookup_eq_some_of_mem hwf.2.1 hmem]
  simp [hd]

theorem unvisitedTop_eq_false {st : SubsetState} (hwf : st.ctx.WF) {L : List Nat} {d : Nat}
    {rest : List (List Nat)} (hw : st.waiting = L :: rest) (hsort : sortStates L = L)
    (hmem : (L, d) ∈ st.ctx.statemap) (hd : d ∈ st.visited) : unvisitedTop st = false := by
  unfold unvisitedTop
  rw [hw]
  show (match st.ctx.statemap.lookup (sortStates L) with
    | some d => decide (d ∉ st.visited) | none => true) = false
  rw [hsort, lookup_eq_some_of_mem hwf.2.1 hmem]
  simp [hd]

/-- The fold over the characters of one popped canonical set satisfies
FoldFacts: the visited set is untouched, the memo grows monotonically
and stays well formed, each processed character records one transition
whose destination key is memoized, and every pushed list is a memoized
key whose id is unvisited. -/
theorem foldProcessChar (nfa : NFA) (K : Finset Nat) (fromId : Nat) :
    ∀ (cs : List Char) (st0 : SubsetState), st0.ctx.WF →
      (∀ p ∈ st0.ctx.statemap, p.1.Nodup ∧ ∀ x ∈ p.1, x ∈ nfa.stateUniv) →
      FoldFacts nfa K fromId cs st0 (cs.foldl (processChar nfa K fromId) st0) := by
  intro cs
  induction cs with
  | nil =>
    intro st0 hwf hkeys
    refine ⟨rfl, hwf, hkeys, fun p hp => hp, ⟨[], by simp, by simp, by simp⟩,
      fun e he => Or.inl he, fun e he => he, by simp, fun e he => Or.inl he⟩
  | cons c cs ih =>
    intro st0 hwf hkeys
    rw [List.foldl_cons]
    have hctx1 : (processChar nfa K fromId st0 c).ctx =
        (st0.ctx.get_state (destList nfa K c)).2 := rfl
    have hvis1 : (processChar nfa K fromId st0 c).visited = st0.visited := rfl
    have htrans1 : (processChar nfa K fromId st0 c).trans =
        ((fromId, c), (st0.ctx.get_state (destList nfa K c)).1) :: st0.trans := rfl
    have hwf1 : (processChar nfa K fromId st0 c).ctx.WF := by
      rw [hctx1]
      exact get_state_WF hwf _
    have hkeys1 : ∀ p ∈ (processChar nfa K fromId st0 c).ctx.statemap,
        p.1.Nodup ∧ ∀ x ∈ p.1, x ∈ nfa.stateUniv := by
      rw [hctx1]
      intro p hp
      cases hl : st0.ctx.statemap.lookup (sortStates (destList nfa K c)) with
      | some d =>
        rw [get_state_found hl] at hp
        exact hkeys p hp
      | none =>
        rw [get_state_new hl] at hp
        rcases List.mem_cons.mp hp with rfl | hp2
        · constructor
          · rw [sortStates_destList]
            exact destList_nodup nfa K c
          · rw [sortStates_destList]
            exact destList_subset_univ nfa K c
        · exact hkeys p hp2
    have hmono1 : ∀ p ∈ st0.ctx.statemap, p ∈ (processChar nfa K fromId st0 c).ctx.statemap := by
      rw [hctx1]
      exact fun p hp => get_state_statemap_mono hp
    have hdestmem : (destList nfa K c, (st0.ctx.get_state (destList nfa K c)).1) ∈
        (processChar nfa K fromId st0 c).ctx.statemap := by
      rw [hctx1]
      have hm := get_state_mem_self st0.ctx (destList nfa K c)
      rw [sortStates_destList] at hm
      exact hm
    obtain ⟨Hv, Hw, Hk, Hc, ⟨pushed, hpw, hpl, hpmem⟩, Htn, Htm, Htc, Hf⟩ :=
      ih (processChar nfa K fromId st0 c) hwf1 hkeys1
    refine ⟨?_, Hw, Hk, ?_, ?_, ?_, ?_, ?_, ?_⟩
    · rw [Hv, hvis1]
    · exact fun p hp => Hc p (hmono1 p hp)
    · by_cases hv : (st0.ctx.get_state (destList nfa K c)).1 ∈ st0.visited
      · have hw1 : (processChar nfa K fromId st0 c).waiting = st0.waiting := by
          simp only [processChar, if_pos hv]
        refine ⟨pushed, by rw [hpw, hw1], le_trans hpl (by simp), ?_⟩
        intro L hL
        obtain ⟨d, hd1, hd2⟩ := hpmem L hL
        rw [hvis1] at hd2
        exact ⟨d, hd1, hd2⟩
      · have hw1 : (processChar nfa K fromId st0 c).waiting =
            destList nfa K c :: st0.waiting := by
          simp only [processChar, if_neg hv]
        refine ⟨pushed ++ [destList nfa K c], ?_, ?_, ?_⟩
        · rw [hpw, hw1, List.append_assoc, List.singleton_append]
        · simp only [List.length_append, List.length_cons, List.length_singleton,
            List.length_nil]
          omega
        · intro L hL
          rcases List.mem_append.mp hL with hL | hL
          · obtain ⟨d, hd1, hd2⟩ := hpmem L hL
            rw [hvis1] at hd2
            exact ⟨d, hd1, hd2⟩
          · rw [List.mem_singleton] at hL
            subst hL
            exact ⟨(st0.ctx.get_state (destList nfa K c)).1, Hc _ hdestmem, hv⟩
    · intro e he
      rcases Htn e he with he2 | he2
      · rw [htrans1] at he2
        rcases List.mem_cons.mp he2 with rfl | he3
        · exact Or.inr ⟨rfl, List.mem_cons_self _ _, Hc _ hdestmem⟩
        · exact Or.inl he3
      · exact Or.inr ⟨he2.1, List.mem_cons_of_mem _ he2.2.1, he2.2.2⟩
    · intro e he
      apply Htm
      rw [htrans1]
      exact List.mem_cons_of_mem _ he
    · intro c2 hc2
      rcases List.mem_cons.mp hc2 with rfl | hc3
      · refine ⟨(st0.ctx.get_state (destList nfa K c2)).1, Htm _ ?_⟩
        rw [htrans1]
        exact List.mem_cons_self _ _
      · exact Htc c2 hc3
    · intro e he
      rcases Hf e he with he2 | he2 | he2
      · rw [htrans1] at he2
        rcases List.mem_cons.mp he2 with rfl | he3
        · by_cases hv : (st0.ctx.get_state (destList nfa K c)).1 ∈ st0.visited
          · exact Or.inr (Or.inl hv)
          · refine Or.inr (Or.inr ⟨destList nfa K c, ?_, Hc _ hdestmem⟩)
            rw [hpw]
            refine List.mem_append.mpr (Or.inr ?_)
            have hw1 : (processChar nfa K fromId st0 c).waiting =
                destList nfa K c :: st0.waiting := by
              simp only [processChar, if_neg hv]
            rw [hw1]
            exact List.mem_cons_self _ _
        · exact Or.inl he3
      · rw [hvis1] at he2
        exact Or.inr (Or.inl he2)
      · exact Or.inr (Or.inr he2)

/-- One nonempty iteration of the worklist loop preserves the loop
invariant and strictly decreases the termination measure psi. -/
theorem subsetStep_preserves (nfa : NFA) (st : SubsetState) (hInv : LoopInv nfa st)
    (hne : st.waiting ≠ []) :
    LoopInv nfa (subsetStep nfa st) ∧ psi nfa (subsetStep nfa st) < psi nfa st := by
  obtain ⟨look, rest, hw⟩ : ∃ look rest, st.waiting = look :: rest := by
    cases hwx : st.waiting with
    | nil => exact absurd hwx hne
    | cons a b => exact ⟨a, b, rfl⟩
  obtain ⟨dL, hdL⟩ := hInv.waiting_mem look (by rw [hw]; exact List.mem_cons_self _ _)
  have hsorted : List.Sorted (· ≤ ·) look := hInv.wf.2.2 (look, dL) hdL
  have hsortEq : sortStates look = look := sortStates_eq_self hsorted
  have hget : st.ctx.get_state look = (dL, st.ctx) :=
    get_state_eq_of_mem hInv.wf (by rw [hsortEq]; exact hdL)
  have hstep : subsetStep nfa st = (charSorted (charsOfSet nfa look.toFinset)).foldl
      (processChar nfa look.toFinset dL)
      ⟨st.ctx, rest, insert dL st.visited, st.trans, st.pushes⟩ := by
    unfold subsetStep
    rw [hw]
    simp only [hget]
  obtain ⟨Hv, Hw, Hk, Hc, ⟨pushed, hpw, hpl, hpmem⟩, Htn, Htm, Htc, Hf⟩ :=
    foldProcessChar nfa look.toFinset dL (charSorted (charsOfSet nfa look.toFinset))
      ⟨st.ctx, rest, insert dL st.visited, st.trans, st.pushes⟩ hInv.wf hInv.keys_good
  rw [hstep]
  have hrv : ((charSorted (charsOfSet nfa look.toFinset)).foldl
      (processChar nfa look.toFinset dL)
      ⟨st.ctx, rest, insert dL st.visited, st.trans, st.pushes⟩).visited =
      insert dL st.visited := Hv
  have hrw : ((charSorted (charsOfSet nfa look.toFinset)).foldl
      (processChar nfa look.toFinset dL)
      ⟨st.ctx, rest, insert dL st.visited, st.trans, st.pushes⟩).waiting =
      pushed ++ rest := hpw
  have hInvR : LoopInv nfa ((charSorted (charsOfSet nfa look.toFinset)).foldl
      (processChar nfa look.toFinset dL)
      ⟨st.ctx, rest, insert dL st.visited, st.trans, st.pushes⟩) := by
    refine ⟨Hw, Hk, ?_, ?_, ?_, ?_, ?_, ?_, ?_⟩
    · intro L hL
      rw [hrw] at hL
      rcases List.mem_append.mp hL with hL | hL
      · obtain ⟨d, hd1, -⟩ := hpmem L hL
        exact ⟨d, hd1⟩
      · obtain ⟨d, hd1⟩ := hInv.waiting_mem L (by rw [hw]; exact List.mem_cons_of_mem _ hL)
        exact ⟨d, Hc _ hd1⟩
    · intro d hd
      rw [hrv] at hd
      rcases Finset.mem_insert.mp hd with rfl | hd2
      · exact ⟨look, Hc _ hdL⟩
      · obtain ⟨K0, hK0⟩ := hInv.visited_sub d hd2
        exact ⟨K0, Hc _ hK0⟩
    · intro e he
      rcases Htn e he with he2 | he2
      · obtain ⟨Kk, h1, h2, h3⟩ := hInv.trans_sound e he2
        exact ⟨Kk, Hc _ h1, h2, Hc _ h3⟩
      · obtain ⟨h1, h2, h3⟩ := he2
        refine ⟨look, ?_, mem_charSorted.mp h2, h3⟩
        rw [h1]
        exact Hc _ hdL
    · intro d Kk hd hK c hc
      rw [hrv] at hd
      rcases Finset.mem_insert.mp hd with rfl | hd2
      · have hkeq : Kk = look := assoc_inj_right Hw.snd_nodup hK (Hc _ hdL)
        subst hkeq
        obtain ⟨t, ht⟩ := Htc c (mem_charSorted.mpr hc)
        exact ⟨t, ht⟩
      · obtain ⟨K0, hK0⟩ := hInv.visited_sub d hd2
        have hkeq : Kk = K0 := assoc_inj_right Hw.snd_nodup hK (Hc _ hK0)
        subst hkeq
        obtain ⟨t, ht⟩ := hInv.trans_complete d Kk hd2 hK0 c hc
        exact ⟨t, Htm _ ht⟩
    · intro e he
      rcases Hf e he with h | h | h
      · rcases hInv.frontier e h with h2 | ⟨L, hL, hLe⟩
        · refine Or.inl ?_
          rw [hrv]
          exact Finset.mem_insert_of_mem h2
        · rw [hw] at hL
          rcases List.mem_cons.mp hL with rfl | hL2
          · have : e.2 = dL := assoc_inj_left hInv.wf.2.1 hLe hdL
            refine Or.inl ?_
            rw [hrv, this]
            exact Finset.mem_insert_self _ _
          · refine Or.inr ⟨L, ?_, Hc _ hLe⟩
            rw [hrw]
            exact List.mem_append.mpr (Or.inr hL2)
      · refine Or.inl ?_
        rw [hrv]
        exact h
      · exact Or.inr h
    · exact Hc _ hInv.start_mem
    · rcases hInv.start_frontier with h | h
      · refine Or.inl ?_
        rw [hrv]
        exact Finset.mem_insert_of_mem h
      · rw [hw] at h
        rcases List.mem_cons.mp h with he | h2
        · have : dL = 0 := assoc_inj_left hInv.wf.2.1 hdL (he ▸ hInv.start_mem)
          refine Or.inl ?_
          rw [hrv, ← this]
          exact Finset.mem_insert_self _ _
        · refine Or.inr ?_
          rw [hrw]
          exact List.mem_append.mpr (Or.inr h2)
  refine ⟨hInvR, ?_⟩
  have hplA : pushed.length ≤ (nfa.alphabet).card := by
    refine le_trans hpl (le_trans (charSorted_length_le _) ?_)
    exact Finset.card_le_card charsOfSet_subset_alphabet
  have hlen_st : st.waiting.length = rest.length + 1 := by
    rw [hw]
    simp
  have hlen_r : ((charSorted (charsOfSet nfa look.toFinset)).foldl
      (processChar nfa look.toFinset dL)
      ⟨st.ctx, rest, insert dL st.visited, st.trans, st.pushes⟩).waiting.length =
      pushed.length + rest.length := by
    rw [hrw]
    simp
  by_cases hd0 : dL ∈ st.visited
  · -- the popped set had been expanded before (re-pop)
    have hveq : insert dL st.visited = st.visited := Finset.insert_eq_self.mpr hd0
    have hts : unvisitedTop st = false := unvisitedTop_eq_false hInv.wf hw hsortEq hdL hd0
    have hinds : (if unvisitedTop st then (nfa.alphabet).card + 1 else 0) = 0 := by
      rw [hts]
      simp
    have hceq : ((charSorted (charsOfSet nfa look.toFinset)).foldl
        (processChar nfa look.toFinset dL)
        ⟨st.ctx, rest, insert dL st.visited, st.trans, st.pushes⟩).visited.card =
        st.visited.card := by
      rw [hrv, hveq]
    have hm : (2 * (nfa.alphabet).card + 2) *
        (2 ^ (nfa.stateUniv).card - ((charSorted (charsOfSet nfa look.toFinset)).foldl
          (processChar nfa look.toFinset dL)
          ⟨st.ctx, rest, insert dL st.visited, st.trans, st.pushes⟩).visited.card) =
        (2 * (nfa.alphabet).card + 2) * (2 ^ (nfa.stateUniv).card - st.visited.card) := by
      rw [hceq]
    cases pushed with
    | nil =>
      have hindr : (if unvisitedTop ((charSorted (charsOfSet nfa look.toFinset)).foldl
          (processChar nfa look.toFinset dL)
          ⟨st.ctx, rest, insert dL st.visited, st.trans, st.pushes⟩) then
          (nfa.alphabet).card + 1 else 0) ≤ (nfa.alphabet).card + 1 := by
        split
        · exact le_refl _
        · omega
      simp only [psi]
      rw [List.length_nil] at hlen_r
      omega
    | cons p ps =>
      obtain ⟨dp, hdp1, hdp2⟩ := hpmem p (List.mem_cons_self _ _)
      have hdp2v : dp ∉ ((charSorted (charsOfSet nfa look.toFinset)).foldl
          (processChar nfa look.toFinset dL)
          ⟨st.ctx, rest, insert dL st.visited, st.trans, st.pushes⟩).visited := by
        rw [hrv]
        exact hdp2
      have hpsort : sortStates p = p := sortStates_eq_self (Hw.2.2 (p, dp) hdp1)
      have hwr_cons : ((charSorted (charsOfSet nfa look.toFinset)).foldl
          (processChar nfa look.toFinset dL)
          ⟨st.ctx, rest, insert dL st.visited, st.trans, st.pushes⟩).waiting =
          p :: (ps ++ rest) := by
        rw [hrw]
        rfl
      have htr : unvisitedTop ((charSorted (charsOfSet nfa look.toFinset)).foldl
          (processChar nfa look.toFinset dL)
          ⟨st.ctx, rest, insert dL st.visited, st.trans, st.pushes⟩) = true :=
        unvisitedTop_eq_true Hw hwr_cons hpsort hdp1 hdp2v
      have hindr : (if unvisitedTop ((charSorted (charsOfSet nfa look.toFinset)).foldl
          (processChar nfa look.toFinset dL)
          ⟨st.ctx, rest, insert dL st.visited, st.trans, st.pushes⟩) then
          (nfa.alphabet).card + 1 else 0) = (nfa.alphabet).card + 1 := by
        rw [htr]
        simp
      simp only [psi]
      rw [List.length_cons] at hlen_r hplA
      omega
  · -- first expansion of the popped set
    have hts : unvisitedTop st = true := unvisitedTop_eq_true hInv.wf hw hsortEq hdL hd0
    have hinds : (if unvisitedTop st then (nfa.alphabet).card + 1 else 0) =
        (nfa.alphabet).card + 1 := by
      rw [hts]
      simp
    have hindr : (if unvisitedTop ((charSorted (charsOfSet nfa look.toFinset)).foldl
        (processChar nfa look.toFinset dL)
        ⟨st.ctx, rest, insert dL st.visited, st.trans, st.pushes⟩) then
        (nfa.alphabet).card + 1 else 0) ≤ (nfa.alphabet).card + 1 := by
      split
      · exact le_refl _
      · omega
    have hrvc : ((charSorted (charsOfSet nfa look.toFinset)).foldl
        (processChar nfa look.toFinset dL)
        ⟨st.ctx, rest, insert dL st.visited, st.trans, st.pushes⟩).visited.card =
        st.visited.card + 1 := by
      rw [hrv]
      exact Finset.card_insert_of_not_mem hd0
    have hP : ((charSorted (charsOfSet nfa look.toFinset)).foldl
        (processChar nfa look.toFinset dL)
        ⟨st.ctx, rest, insert dL st.visited, st.trans, st.pushes⟩).visited.card ≤
        2 ^ (nfa.stateUniv).card :=
      le_trans (visited_card_le hInvR) (statemap_length_le Hw Hk)
    have hsub : 2 ^ (nfa.stateUniv).card - st.visited.card =
        (2 ^ (nfa.stateUniv).card - ((charSorted (charsOfSet nfa look.toFinset)).foldl
          (processChar nfa look.toFinset dL)
          ⟨st.ctx, rest, insert dL st.visited, st.trans, st.pushes⟩).visited.card) + 1 := by
      omega
    have hm : (2 * (nfa.alphabet).card + 2) *
        (2 ^ (nfa.stateUniv).card - st.visited.card) =
        (2 * (nfa.alphabet).card + 2) *
          (2 ^ (nfa.stateUniv).card - ((charSorted (charsOfSet nfa look.toFinset)).foldl
            (processChar nfa look.toFinset dL)
            ⟨st.ctx, rest, insert dL st.visited, st.trans, st.pushes⟩).visited.card) +
          (2 * (nfa.alphabet).card + 2) := by
      rw [hsub]
      ring
    simp only [psi]
    omega

theorem subsetLoop_inv (nfa : NFA) :
    ∀ (fuel : Nat) (st : SubsetState), LoopInv nfa st → LoopInv nfa (subsetLoop nfa fuel st) := by
  intro fuel
  induction fuel with
  | zero => exact fun st h => h
  | succ fuel ih =>
    intro st h
    unfold subsetLoop
    by_cases hw : st.waiting = []
    · rw [if_pos hw]
      exact h
    · rw [if_neg hw]
      exact ih _ (subsetStep_preserves nfa st h hw).1

/-- While the worklist is nonempty the measure is positive. -/
theorem psi_pos {nfa : NFA} {st : SubsetState} (hInv : LoopInv nfa st)
    (hne : st.waiting ≠ []) : 1 ≤ psi nfa st := by
  obtain ⟨look, rest, hw⟩ : ∃ look rest, st.waiting = look :: rest := by
    cases hwx : st.waiting with
    | nil => exact absurd hwx hne
    | cons a b => exact ⟨a, b, rfl⟩
  obtain ⟨dL, hdL⟩ := hInv.waiting_mem look (by rw [hw]; exact List.mem_cons_self _ _)
  have hsortEq : sortStates look = look := sortStates_eq_self (hInv.wf.2.2 (look, dL) hdL)
  have hlen : st.waiting.length = rest.length + 1 := by
    rw [hw]
    simp
  by_cases hd0 : dL ∈ st.visited
  · have hts : unvisitedTop st = false := unvisitedTop_eq_false hInv.wf hw hsortEq hdL hd0
    have hinds : (if unvisitedTop st then (nfa.alphabet).card + 1 else 0) = 0 := by
      rw [hts]
      simp
    simp only [psi]
    omega
  · have hts : unvisitedTop st = true := unvisitedTop_eq_true hInv.wf hw hsortEq hdL hd0
    have hinds : (if unvisitedTop st then (nfa.alphabet).card + 1 else 0) =
        (nfa.alphabet).card + 1 := by
      rw [hts]
      simp
    have hsubv : insert dL st.visited ⊆ (st.ctx.statemap.map Prod.snd).toFinset := by
      intro d hd
      rw [List.mem_toFinset]
      rcases Finset.mem_insert.mp hd with rfl | hd2
      · exact List.mem_map.mpr ⟨(look, d), hdL, rfl⟩
      · obtain ⟨K0, hK0⟩ := hInv.visited_sub d hd2
        exact List.mem_map.mpr ⟨(K0, d), hK0, rfl⟩
    have hv1 : st.visited.card + 1 ≤ st.ctx.statemap.length := by
      calc st.visited.card + 1 = (insert dL st.visited).card :=
            (Finset.card_insert_of_not_mem hd0).symm
        _ ≤ (st.ctx.statemap.map Prod.snd).toFinset.card := Finset.card_le_card hsubv
        _ ≤ (st.ctx.statemap.map Prod.snd).length := List.toFinset_card_le _
        _ = st.ctx.statemap.length := by simp
    have hv2 : st.ctx.statemap.length ≤ 2 ^ (nfa.stateUniv).card :=
      statemap_length_le hInv.wf hInv.keys_good
    have hmge : 2 * (nfa.alphabet).card + 2 ≤ (2 * (nfa.alphabet).card + 2) *
        (2 ^ (nfa.stateUniv).card - st.visited.card) := by
      have h1 : 1 ≤ 2 ^ (nfa.stateUniv).card - st.visited.card := by omega
      calc 2 * (nfa.alphabet).card + 2 = (2 * (nfa.alphabet).card + 2) * 1 := by ring
        _ ≤ (2 * (nfa.alphabet).card + 2) *
            (2 ^ (nfa.stateUniv).card - st.visited.card) :=
          Nat.mul_le_mul_left _ h1
    simp only [psi]
    omega

theorem subsetLoop_drains (nfa : NFA) :
    ∀ (fuel : Nat) (st : SubsetState), LoopInv nfa st → psi nfa st ≤ fuel →
      (subsetLoop nfa fuel st).waiting = [] := by
  intro fuel
  induction fuel with
  | zero =>
    intro st hInv hpsi
    by_contra hne
    have := psi_pos hInv (by exact hne)
    omega
  | succ fuel ih =>
    intro st hInv hpsi
    unfold subsetLoop
    by_cases hw : st.waiting = []
    · rw [if_pos hw]
      exact hw
    · rw [if_neg hw]
      obtain ⟨hInv2, hlt⟩ := subsetStep_preserves nfa st hInv hw
      exact ih _ hInv2 (by omega)

/-- The initial state of the worklist loop (memo seeded with the start
closure) satisfies the loop invariant, and the invariant holds with a
drained worklist at the end of the loop; moreover the start id is 0. -/
theorem subsetConstruction_facts (nfa : NFA) :
    LoopInv nfa (subsetConstruction nfa).2 ∧ (subsetConstruction nfa).2.waiting = [] ∧
      (subsetConstruction nfa).1 = 0 := by
  have h0 : ((⟨0, []⟩ : DFAContext)).statemap.lookup (sortStates (startList nfa)) = none := rfl
  have hgs : (⟨0, []⟩ : DFAContext).get_state (startList nfa) =
      (0, ⟨1, [(startList nfa, 0)]⟩) := by
    have h := get_state_new h0
    rw [sortStates_startList] at h
    exact h
  have hctx1 : ((⟨0, []⟩ : DFAContext).get_state (startList nfa)).2 =
      ⟨1, [(startList nfa, 0)]⟩ := by rw [hgs]
  have hInv0 : LoopInv nfa ⟨((⟨0, []⟩ : DFAContext).get_state (startList nfa)).2,
      [startList nfa], ∅, [], [startList nfa]⟩ := by
    refine ⟨?_, ?_, ?_, ?_, ?_, ?_, ?_, ?_, ?_⟩
    · show ((⟨0, []⟩ : DFAContext).get_state (startList nfa)).2.WF
      exact get_state_WF emptyContext_WF (startList nfa)
    · show ∀ p ∈ ((⟨0, []⟩ : DFAContext).get_state (startList nfa)).2.statemap, _
      rw [hctx1]
      intro p hp
      rcases List.mem_cons.mp hp with rfl | hp2
      · exact ⟨startList_nodup nfa, startList_subset_univ nfa⟩
      · exact absurd hp2 (List.not_mem_nil p)
    · intro L hL
      rw [List.mem_singleton] at hL
      subst hL
      refine ⟨0, ?_⟩
      rw [hctx1]
      exact List.mem_cons_self _ _
    · intro d hd
      exact absurd hd (Finset.not_mem_empty d)
    · intro e he
      exact absurd he (List.not_mem_nil e)
    · intro d K hd
      exact absurd hd (Finset.not_mem_empty d)
    · intro e he
      exact absurd he (List.not_mem_nil e)
    · show (startList nfa, 0) ∈ ((⟨0, []⟩ : DFAContext).get_state (startList nfa)).2.statemap
      rw [hctx1]
      exact List.mem_cons_self _ _
    · exact Or.inr (List.mem_cons_self _ _)
  have hind : (if unvisitedTop ⟨((⟨0, []⟩ : DFAContext).get_state (startList nfa)).2,
      [startList nfa], ∅, [], [startList nfa]⟩ then (nfa.alphabet).card + 1 else 0) ≤
      (nfa.alphabet).card + 1 := by
    split
    · exact le_refl _
    · omega
  have hpsi0 : psi nfa ⟨((⟨0, []⟩ : DFAContext).get_state (startList nfa)).2,
      [startList nfa], ∅, [], [startList nfa]⟩ ≤ subsetFuel nfa := by
    simp only [psi, subsetFuel, Finset.card_empty, Nat.sub_zero, List.length_singleton,
      List.length_cons, List.length_nil]
    have hmul : (2 * (nfa.alphabet).card + 2) * (2 ^ (nfa.stateUniv).card + 1) =
        (2 * (nfa.alphabet).card + 2) * 2 ^ (nfa.stateUniv).card +
          (2 * (nfa.alphabet).card + 2) := by ring
    omega
  have hsc2 : (subsetConstruction nfa).2 = subsetLoop nfa (subsetFuel nfa)
      ⟨((⟨0, []⟩ : DFAContext).get_state (startList nfa)).2,
        [startList nfa], ∅, [], [startList nfa]⟩ := by
    simp only [subsetConstruction]
  have hsc1 : (subsetConstruction nfa).1 =
      ((⟨0, []⟩ : DFAContext).get_state (startList nfa)).1 := by
    simp only [subsetConstruction]
  refine ⟨?_, ?_, ?_⟩
  · rw [hsc2]
    exact subsetLoop_inv nfa _ _ hInv0
  · rw [hsc2]
    exact subsetLoop_drains nfa _ _ hInv0 hpsi0
  · rw [hsc1, hgs]

/-- Claim C5, amended: a canonical set can be pushed onto the worklist
more than once (see the counterexample), but every push is of a set
whose id is not yet expanded, there are only finitely many canonical
sets, and the worklist loop of DFA::from_nfa always drains within the
computed fuel: construction terminates. -/
theorem c5_worklist_terminates (nfa : NFA) : (subsetConstruction nfa).2.waiting = [] :=
  (subsetConstruction_facts nfa).2.1

/-- Under the character-source/epsilon separation invariant the seed of
the destination computation collapses to move(K, c): the extra direct
epsilon successors of the c-sources are all empty. -/
theorem destSeed_eq_moveSet {nfa : NFA} (hg : nfa.goodSources) (K : Finset Nat) (c : Char) :
    destSeed nfa K c = moveSet nfa K c := by
  ext t
  rw [mem_moveSet]
  unfold destSeed
  rw [Finset.mem_biUnion]
  constructor
  · rintro ⟨s, hs, hm⟩
    rw [mem_cSources] at hs
    rcases Finset.mem_union.mp hm with hm | hm
    · exact ⟨s, hs.1, NFA.mem_next_states.mp hm⟩
    · obtain ⟨t2, ht2⟩ := hs.2
      have he := hg (s, some c, t2) ht2 rfl
      rw [he] at hm
      exact absurd hm (Finset.not_mem_empty t)
  · rintro ⟨s, hs, he⟩
    exact ⟨s, mem_cSources.mpr ⟨hs, t, he⟩,
      Finset.mem_union_left _ (NFA.mem_next_states.mpr he)⟩

theorem destList_eq_move {nfa : NFA} (hg : nfa.goodSources) (K : Finset Nat) (c : Char) :
    destList nfa K c = natRangeSorted (nfa.eclosure (moveSet nfa K c)) := by
  unfold destList
  rw [destSeed_eq_moveSet hg]

/-- Claim C4, amended: for every NFA in which no source of a character
edge has an epsilon out-transition (every NFA assembled from a syntax
tree is such, claim C9), each transition the worklist loop records for a
memoized source set K and symbol c goes to the memoized id of exactly
epsilon-closure(move(K, c)) and c labels a non-epsilon transition out of
K; in general the code records epsilon-closure of move(K, c) united
with the direct epsilon successors of the c-sources of K (see the
counterexample). -/
theorem c4_destination_sets (nfa : NFA) (hg : nfa.goodSources) (K : List Nat) (d t : Nat)
    (c : Char) (hK : (K, d) ∈ (subsetConstruction nfa).2.ctx.statemap)
    (ht : ((d, c), t) ∈ (subsetConstruction nfa).2.trans) :
    (natRangeSorted (nfa.eclosure (moveSet nfa K.toFinset c)), t) ∈
      (subsetConstruction nfa).2.ctx.statemap ∧ c ∈ charsOfSet nfa K.toFinset := by
  obtain ⟨hInv, -, -⟩ := subsetConstruction_facts nfa
  obtain ⟨K2, h1, h2, h3⟩ := hInv.trans_sound ((d, c), t) ht
  have hkeq : K2 = K := assoc_inj_right hInv.wf.snd_nodup h1 hK
  subst hkeq
  rw [destList_eq_move hg] at h3
  exact ⟨h3, h2⟩

/-- Witness for c4_destination_sets at the one-edge NFA 0 -a-> 1. -/
theorem c4_destination_sets_witness :
    (⟨0, {1}, {(0, some 'a', 1)}⟩ : NFA).goodSources ∧
    ([0], 0) ∈ (subsetConstruction (⟨0, {1}, {(0, some 'a', 1)}⟩ : NFA)).2.ctx.statemap ∧
    ((0, 'a'), 1) ∈ (subsetConstruction (⟨0, {1}, {(0, some 'a', 1)}⟩ : NFA)).2.trans ∧
    ((natRangeSorted ((⟨0, {1}, {(0, some 'a', 1)}⟩ : NFA).eclosure
        (moveSet (⟨0, {1}, {(0, some 'a', 1)}⟩ : NFA) ([0] : List Nat).toFinset 'a')), 1) ∈
          (subsetConstruction (⟨0, {1}, {(0, some 'a', 1)}⟩ : NFA)).2.ctx.statemap ∧
      'a' ∈ charsOfSet (⟨0, {1}, {(0, some 'a', 1)}⟩ : NFA) ([0] : List Nat).toFinset) :=
  ⟨by decide, by decide, by decide,
    c4_destination_sets ⟨0, {1}, {(0, some 'a', 1)}⟩ (by decide) [0] 0 1 'a'
      (by decide) (by decide)⟩

/-! ## Bridging lemmas between DFA::from_nfa and the loop state -/

theorem from_nfa_next_state (nfa : NFA) (d : Nat) (c : Char) :
    (DFA.from_nfa nfa).next_state d c = (subsetConstruction nfa).2.trans.lookup (d, c) := by
  simp only [DFA.from_nfa, DFA.next_state]

theorem from_nfa_start (nfa : NFA) : (DFA.from_nfa nfa).start = 0 := by
  simp only [DFA.from_nfa]
  exact (subsetConstruction_facts nfa).2.2

theorem from_nfa_mem_accepts {nfa : NFA} {d : Nat} :
    d ∈ (DFA.from_nfa nfa).accepts ↔
      ∃ p ∈ (subsetConstruction nfa).2.ctx.statemap, p.2 = d ∧ ∃ x ∈ p.1, x ∈ nfa.accepts := by
  simp only [DFA.from_nfa, List.mem_toFinset, List.mem_map, List.mem_filter]
  constructor
  · rintro ⟨p, ⟨hp, hany⟩, rfl⟩
    rw [List.any_eq_true] at hany
    obtain ⟨x, hx1, hx2⟩ := hany
    exact ⟨p, hp, rfl, x, hx1, of_decide_eq_true hx2⟩
  · rintro ⟨p, hp, rfl, x, hx1, hx2⟩
    exact ⟨p, ⟨hp, List.any_eq_true.mpr ⟨x, hx1, decide_eq_true hx2⟩⟩, rfl⟩

theorem moveSet_empty (nfa : NFA) (c : Char) : moveSet nfa ∅ c = ∅ := by
  unfold moveSet
  simp

theorem sim_from_empty (nfa : NFA) :
    ∀ s : List Char, s.foldl (nfaStep nfa) ∅ = ∅ := by
  intro s
  induction s with
  | nil => rfl
  | cons c rest ih =>
    rw [List.foldl_cons]
    have h : nfaStep nfa ∅ c = ∅ := by
      unfold nfaStep
      rw [moveSet_empty]
      exact nfa.eclosure_empty
    rw [h]
    exact ih

set_option maxHeartbeats 2000000 in
/-- Main engine equivalence: for a good-source NFA, the DFA matcher
started at a visited id whose memo key is K decides exactly whether the
NFA simulation started at K.toFinset ends in a set meeting the accept
states. -/
theorem matchesFrom_eq_sim (nfa : NFA) (hg : nfa.goodSources) :
    ∀ (s : List Char) (d : Nat) (K : List Nat),
      d ∈ (subsetConstruction nfa).2.visited →
      (K, d) ∈ (subsetConstruction nfa).2.ctx.statemap →
      ((DFA.from_nfa nfa).matchesFrom d s = true ↔
        ((s.foldl (nfaStep nfa) K.toFinset) ∩ nfa.accepts).Nonempty) := by
  obtain ⟨hInv, hdrain, -⟩ := subsetConstruction_facts nfa
  intro s
  induction s with
  | nil =>
    intro d K hvis hK
    rw [List.foldl_nil]
    simp only [DFA.matchesFrom, decide_eq_true_eq]
    rw [from_nfa_mem_accepts]
    constructor
    · rintro ⟨p, hp, hpd, x, hx1, hx2⟩
      have hp2 : (p.1, d) ∈ (subsetConstruction nfa).2.ctx.statemap := by
        rw [← hpd]
        exact hp
      have hpK : p.1 = K := assoc_inj_right hInv.wf.snd_nodup hp2 hK
      exact ⟨x, Finset.mem_inter.mpr ⟨List.mem_toFinset.mpr (hpK ▸ hx1), hx2⟩⟩
    · rintro ⟨x, hx⟩
      obtain ⟨hx1, hx2⟩ := Finset.mem_inter.mp hx
      exact ⟨(K, d), hK, rfl, x, List.mem_toFinset.mp hx1, hx2⟩
  | cons c rest ih =>
    intro d K hvis hK
    by_cases hc : c ∈ charsOfSet nfa K.toFinset
    · obtain ⟨t0, ht0⟩ := hInv.trans_complete d K hvis hK c hc
      obtain ⟨K2, hK2, -, hL0⟩ := hInv.trans_sound ((d, c), t0) ht0
      have hK2K : K2 = K := assoc_inj_right hInv.wf.snd_nodup hK2 hK
      rw [hK2K] at hL0
      have hval : ∀ p ∈ (subsetConstruction nfa).2.trans, p.1 = (d, c) → p.2 = t0 := by
        intro p hp hpk
        obtain ⟨K3, hK3, -, hL3⟩ := hInv.trans_sound p hp
        rw [hpk] at hK3 hL3
        have hK3K : K3 = K := assoc_inj_right hInv.wf.snd_nodup hK3 hK
        rw [hK3K] at hL3
        exact assoc_inj_left hInv.wf.2.1 hL3 hL0
      have hlook : (subsetConstruction nfa).2.trans.lookup (d, c) = some t0 :=
        lookup_determined ⟨((d, c), t0), ht0, rfl⟩ hval
      have hnext : (DFA.from_nfa nfa).next_state d c = some t0 := by
        rw [from_nfa_next_state]
        exact hlook
      have ht0vis : t0 ∈ (subsetConstruction nfa).2.visited := by
        rcases hInv.frontier ((d, c), t0) ht0 with h | ⟨L, hL, -⟩
        · exact h
        · rw [hdrain] at hL
          exact absurd hL (List.not_mem_nil _)
      have hset : (destList nfa K.toFinset c).toFinset = nfaStep nfa K.toFinset c := by
        rw [destList_toFinset, destSeed_eq_moveSet hg]
        rfl
      have := ih t0 (destList nfa K.toFinset c) ht0vis hL0
      rw [hset] at this
      simp only [DFA.matchesFrom, hnext, List.foldl_cons]
      exact this
    · have hnone : (subsetConstruction nfa).2.trans.lookup (d, c) = none := by
        rw [lookup_eq_none_iff]
        intro p hp hpk
        obtain ⟨K3, hK3, hc3, -⟩ := hInv.trans_sound p hp
        rw [hpk] at hK3 hc3
        have hK3K : K3 = K := assoc_inj_right hInv.wf.snd_nodup hK3 hK
        rw [hK3K] at hc3
        exact hc hc3
      have hnext : (DFA.from_nfa nfa).next_state d c = none := by
        rw [from_nfa_next_state]
        exact hnone
      have hstep : nfaStep nfa K.toFinset c = ∅ := by
        have hmv : moveSet nfa K.toFinset c = ∅ := by
          rw [Finset.eq_empty_iff_forall_not_mem]
          intro t ht
          obtain ⟨s2, hs2, he2⟩ := mem_moveSet.mp ht
          exact hc (mem_charsOfSet.mpr ⟨s2, hs2, t, he2⟩)
        unfold nfaStep
        rw [hmv]
        exact nfa.eclosure_empty
      simp only [DFA.matchesFrom, hnext, List.foldl_cons, hstep, sim_from_empty,
        Finset.empty_inter]
      simp

set_option maxHeartbeats 2000000 in
/-- Claim C1: the subset-construction DFA is equivalent to the Thompson
NFA it is built from.  For every syntax tree t and every input string,
the NFA simulated with epsilon-closures accepts exactly when
Regex::matches on the DFA built by DFA::from_nfa(NFA::from_node(t))
returns true. -/
theorem c1_nfa_dfa_equivalence (t : Node) (s : List Char) :
    nfaAccepts (NFA.from_node t) s ↔
      (Regex.mk (DFA.from_nfa (NFA.from_node t))).matches s = true := by
  have hg := from_node_goodSources t
  obtain ⟨hInv, hdrain, -⟩ := subsetConstruction_facts (NFA.from_node t)
  have h0vis : 0 ∈ (subsetConstruction (NFA.from_node t)).2.visited := by
    rcases hInv.start_frontier with h | h
    · exact h
    · rw [hdrain] at h
      exact absurd h (List.not_mem_nil _)
  have heq := matchesFrom_eq_sim (NFA.from_node t) hg s 0 (startList (NFA.from_node t))
    h0vis hInv.start_mem
  rw [startList_toFinset] at heq
  have hm : (Regex.mk (DFA.from_nfa (NFA.from_node t))).matches s =
      (DFA.from_nfa (NFA.from_node t)).matchesFrom 0 s := by
    unfold Regex.matches
    rw [from_nfa_start]
  rw [hm]
  unfold nfaAccepts nfaSim
  exact heq.symm

/-! ## Lexer and parser totality (claim C2, amended) -/

theorem map_isSome {α β : Type} (f : α → β) (x : Option α) :
    (Option.map f x).isSome = x.isSome := by cases x <;> rfl

theorem scan_total (l : List Char) (h : (Lexer.tokenizeAll l).isSome = true) :
    ∃ t2 r2, Lexer.scan l = some (t2, r2) ∧ (Lexer.tokenizeAll r2).isSome = true ∧
      stateWeight (t2, r2) ≤ l.length := by
  revert h
  rw [Lexer.scan.eq_def]
  split
  · intro h
    exact ⟨Token.eof, [], rfl, by simp [Lexer.tokenizeAll], by simp [stateWeight]⟩
  · intro h
    simp [Lexer.tokenizeAll] at h
  · intro h
    simp only [Lexer.tokenizeAll, map_isSome] at h
    exact ⟨_, _, rfl, h, by simp [stateWeight]; try omega⟩
  · intro h
    simp only [Lexer.tokenizeAll, map_isSome] at h
    exact ⟨_, _, rfl, h, by simp [stateWeight]; try omega⟩
  · intro h
    simp only [Lexer.tokenizeAll, map_isSome] at h
    exact ⟨_, _, rfl, h, by simp [stateWeight]; try omega⟩
  · intro h
    simp only [Lexer.tokenizeAll, map_isSome] at h
    exact ⟨_, _, rfl, h, by simp [stateWeight]; try omega⟩
  · intro h
    simp only [Lexer.tokenizeAll, map_isSome] at h
    exact ⟨_, _, rfl, h, by simp [stateWeight]; try omega⟩
  · intro h
    rw [Lexer.tokenizeAll.eq_def] at h
    split at h
    · simp_all
    · simp_all
    · simp_all
    · simp_all
    · simp_all
    · simp_all
    · simp_all
    · rename_i heq
      rw [map_isSome] at h
      injection heq with h1 h2
      subst h1
      subst h2
      exact ⟨_, _, rfl, h, by simp [stateWeight]; try omega⟩

theorem match_next_good (t : Token) (st : ParserState) (hl : lexOK st) :
    (st.1 = t ∧ ∃ st2, Parser.match_next t st = PR.ok () st2 ∧ lexOK st2 ∧
        stateWeight st2 + (if t = Token.eof then 0 else 1) ≤ stateWeight st) ∨
    (st.1 ≠ t ∧ Parser.match_next t st = PR.error ⟨[t], st.1⟩ st) := by
  unfold Parser.match_next
  by_cases he : st.1 = t
  · left
    refine ⟨he, ?_⟩
    obtain ⟨t2, r2, hscan, hl2, hw2⟩ := scan_total st.2 hl
    rw [if_pos he, hscan]
    refine ⟨(t2, r2), rfl, hl2, ?_⟩
    have hst : stateWeight st = (if t = Token.eof then 0 else 1) + st.2.length := by
      unfold stateWeight
      rw [he]
    rw [hst]
    omega
  · right
    rw [if_neg he]
    exact ⟨he, rfl⟩

theorem parser_total (fuel : Nat) :
    ∀ st : ParserState, lexOK st →
      (6 * stateWeight st + 1 ≤ fuel → PROk st 1 (Parser.factor fuel st)) ∧
      (6 * stateWeight st + 2 ≤ fuel → PROk st 1 (Parser.star fuel st)) ∧
      (6 * stateWeight st + 3 ≤ fuel → PROk st 1 (Parser.sub_sequence fuel st)) ∧
      (6 * stateWeight st + 4 ≤ fuel → PROk st 0 (Parser.sequence fuel st)) ∧
      (6 * stateWeight st + 5 ≤ fuel → PROk st 0 (Parser.sub_expression fuel st)) ∧
      (6 * stateWeight st + 6 ≤ fuel → PROk st 0 (Parser.expression fuel st)) := by
  induction fuel with
  | zero =>
    intro st hl
    refine ⟨?_, ?_, ?_, ?_, ?_, ?_⟩ <;> (intro h; exact absurd h (by omega))
  | succ n ih =>
    intro st hl
    obtain ⟨look, chars⟩ := st
    refine ⟨?_, ?_, ?_, ?_, ?_, ?_⟩
    · -- factor
      intro hrank
      cases look with
      | leftParen =>
        simp only [Parser.factor]
        rcases match_next_good Token.leftParen (Token.leftParen, chars) hl with
          ⟨-, st1, hok, hl1, hw1⟩ | ⟨hne, -⟩
        · simp only [hok, PR.andThen]
          simp at hw1
          rcases (ih st1 hl1).2.2.2.2.1 (by omega) with
            ⟨node, st2, heq2, hl2, hw2⟩ | ⟨e, st2, heq2, hl2, hw2⟩
          · simp only [heq2]
            rcases match_next_good Token.rightParen st2 hl2 with
              ⟨-, st3, hok3, hl3, hw3⟩ | ⟨hne3, herr3⟩
            · simp only [hok3, PR.andThen]
              simp at hw3
              exact Or.inl ⟨node, st3, rfl, hl3, by omega⟩
            · simp only [herr3, PR.andThen]
              exact Or.inr ⟨_, st2, rfl, hl2, by omega⟩
          · simp only [heq2]
            rcases match_next_good Token.rightParen st2 hl2 with
              ⟨-, st3, hok3, hl3, hw3⟩ | ⟨hne3, herr3⟩
            · simp only [hok3, PR.andThen]
              simp at hw3
              exact Or.inr ⟨e, st3, rfl, hl3, by omega⟩
            · simp only [herr3, PR.andThen]
              exact Or.inr ⟨_, st2, rfl, hl2, by omega⟩
        · exact absurd rfl hne
      | character c =>
        simp only [Parser.factor]
        rcases match_next_good (Token.character c) (Token.character c, chars) hl with
          ⟨-, st1, hok, hl1, hw1⟩ | ⟨hne, -⟩
        · simp only [hok, PR.andThen]
          simp at hw1
          exact Or.inl ⟨Node.character c, st1, rfl, hl1, by omega⟩
        · exact absurd rfl hne
      | unionOp =>
        simp only [Parser.factor]
        exact Or.inr ⟨_, _, rfl, hl, le_refl _⟩
      | starOp =>
        simp only [Parser.factor]
        exact Or.inr ⟨_, _, rfl, hl, le_refl _⟩
      | rightParen =>
        simp only [Parser.factor]
        exact Or.inr ⟨_, _, rfl, hl, le_refl _⟩
      | eof =>
        simp only [Parser.factor]
        exact Or.inr ⟨_, _, rfl, hl, le_refl _⟩
    · -- star
      intro hrank
      simp only [Parser.star]
      rcases (ih (look, chars) hl).1 (by omega) with
        ⟨node, st1, heq1, hl1, hw1⟩ | ⟨e, st1, heq1, hl1, hw1⟩
      · simp only [heq1, PR.andThen]
        obtain ⟨look1, chars1⟩ := st1
        cases look1
        case starOp =>
          rcases match_next_good Token.starOp (Token.starOp, chars1) hl1 with
            ⟨-, st2, hok2, hl2, hw2⟩ | ⟨hne, -⟩
          · simp only [hok2, PR.andThen]
            simp at hw2
            exact Or.inl ⟨Node.star node, st2, rfl, hl2, by omega⟩
          · exact absurd rfl hne
        all_goals exact Or.inl ⟨node, _, rfl, hl1, hw1⟩
      · simp only [heq1, PR.andThen]
        exact Or.inr ⟨e, st1, rfl, hl1, hw1⟩
    · -- sub_sequence
      intro hrank
      simp only [Parser.sub_sequence]
      rcases (ih (look, chars) hl).2.1 (by omega) with
        ⟨node, st1, heq1, hl1, hw1⟩ | ⟨e, st1, heq1, hl1, hw1⟩
      · simp only [heq1, PR.andThen]
        obtain ⟨look1, chars1⟩ := st1
        cases look1
        case leftParen =>
          rcases (ih (Token.leftParen, chars1) hl1).2.2.1 (by omega) with
            ⟨node2, st2, heq2, hl2, hw2⟩ | ⟨e2, st2, heq2, hl2, hw2⟩
          · simp only [heq2, PR.andThen]
            exact Or.inl ⟨Node.concat node node2, st2, rfl, hl2, by omega⟩
          · simp only [heq2, PR.andThen]
            exact Or.inr ⟨e2, st2, rfl, hl2, by omega⟩
        case character c =>
          rcases (ih (Token.character c, chars1) hl1).2.2.1 (by omega) with
            ⟨node2, st2, heq2, hl2, hw2⟩ | ⟨e2, st2, heq2, hl2, hw2⟩
          · simp only [heq2, PR.andThen]
            exact Or.inl ⟨Node.concat node node2, st2, rfl, hl2, by omega⟩
          · simp only [heq2, PR.andThen]
            exact Or.inr ⟨e2, st2, rfl, hl2, by omega⟩
        all_goals exact Or.inl ⟨node, _, rfl, hl1, hw1⟩
      · simp only [heq1, PR.andThen]
        exact Or.inr ⟨e, st1, rfl, hl1, hw1⟩
    · -- sequence
      intro hrank
      cases look
      case leftParen =>
        simp only [Parser.sequence]
        rcases (ih (Token.leftParen, chars) hl).2.2.1 (by omega) with
          ⟨node, st1, heq1, hl1, hw1⟩ | ⟨e, st1, heq1, hl1, hw1⟩
        · exact Or.inl ⟨node, st1, heq1, hl1, by omega⟩
        · exact Or.inr ⟨e, st1, heq1, hl1, hw1⟩
      case character c =>
        simp only [Parser.sequence]
        rcases (ih (Token.character c, chars) hl).2.2.1 (by omega) with
          ⟨node, st1, heq1, hl1, hw1⟩ | ⟨e, st1, heq1, hl1, hw1⟩
        · exact Or.inl ⟨node, st1, heq1, hl1, by omega⟩
        · exact Or.inr ⟨e, st1, heq1, hl1, hw1⟩
      all_goals (simp only [Parser.sequence]; exact Or.inl ⟨Node.empty, _, rfl, hl, by omega⟩)
    · -- sub_expression
      intro hrank
      simp only [Parser.sub_expression]
      rcases (ih (look, chars) hl).2.2.2.1 (by omega) with
        ⟨node, st1, heq1, hl1, hw1⟩ | ⟨e, st1, heq1, hl1, hw1⟩
      · simp only [heq1, PR.andThen]
        obtain ⟨look1, chars1⟩ := st1
        cases look1
        case unionOp =>
          rcases match_next_good Token.unionOp (Token.unionOp, chars1) hl1 with
            ⟨-, st2, hok2, hl2, hw2⟩ | ⟨hne, -⟩
          · simp only [hok2, PR.andThen]
            simp at hw2
            rcases (ih st2 hl2).2.2.2.2.1 (by omega) with
              ⟨node2, st3, heq3, hl3, hw3⟩ | ⟨e2, st3, heq3, hl3, hw3⟩
            · simp only [heq3, PR.andThen]
              exact Or.inl ⟨Node.union node node2, st3, rfl, hl3, by omega⟩
            · simp only [heq3, PR.andThen]
              exact Or.inr ⟨e2, st3, rfl, hl3, by omega⟩
          · exact absurd rfl hne
        all_goals exact Or.inl ⟨node, _, rfl, hl1, hw1⟩
      · simp only [heq1, PR.andThen]
        exact Or.inr ⟨e, st1, rfl, hl1, hw1⟩
    · -- expression
      intro hrank
      simp only [Parser.expression]
      rcases (ih (look, chars) hl).2.2.2.2.1 (by omega) with
        ⟨node, st1, heq1, hl1, hw1⟩ | ⟨e, st1, heq1, hl1, hw1⟩
      · simp only [heq1, PR.andThen]
        rcases match_next_good Token.eof st1 hl1 with
          ⟨hm, st2, hok2, hl2, hw2⟩ | ⟨hne, herr2⟩
        · simp only [hok2, PR.andThen]
          simp at hw2
          exact Or.inl ⟨node, st2, rfl, hl2, by omega⟩
        · simp only [herr2, PR.andThen]
          exact Or.inr ⟨_, st1, rfl, hl1, by omega⟩
      · simp only [heq1, PR.andThen]
        exact Or.inr ⟨e, st1, rfl, hl1, hw1⟩

/-- Claim C2, amended: Regex::new can abort abnormally only through the
lexer panic on a dangling backslash.  Whenever the whole pattern lexes
(Lexer.tokenizeAll succeeds), Regex::new terminates normally with Ok or
Err - the recursive-descent parser never runs the lexer past the end of
a lexable input and never diverges.  The unamended claim (Regex::new
never panics on any pattern) is refuted by c2_counterexample: the
pattern consisting of a single backslash panics inside Lexer::scan. -/
theorem c2_compile_totality (pattern : List Char)
    (h : (Lexer.tokenizeAll pattern).isSome = true) :
    (Regex.new pattern).normal = true := by
  obtain ⟨t0, r0, hscan, hl0, hw0⟩ := scan_total pattern h
  have hexp := ((parser_total (parseFuel (t0, r0)) (t0, r0)) hl0).2.2.2.2.2
    (by unfold parseFuel; omega)
  rcases hexp with ⟨node, st2, heq, -, -⟩ | ⟨e, st2, heq, -, -⟩ <;>
    simp only [Regex.new, hscan, heq] <;> rfl

/-- Witness for c2_compile_totality at the one-character pattern "a". -/
theorem c2_compile_totality_witness :
    (Lexer.tokenizeAll ['a']).isSome = true ∧ (Regex.new ['a']).normal = true :=
  ⟨by decide, c2_compile_totality ['a'] (by decide)⟩

end RyotaRegex
